import Mathlib

/-!
# UTF-8 validation, decoding and display width (`src/lib/u8.c`)

A shallow embedding of the functions of `u8.c` and the properties of them
that the specification states.

Conventions of the embedding:

* a byte buffer `const char *s` is a `List Nat`; a byte read through
  `const uint8_t *b` is the list element reduced modulo `2^8` (`byteAt`).
  The C functions read `b[i]` only for `i` below the length `n` they are
  given, so a buffer holds at least `n` bytes; every concrete buffer used
  below does;
* `size_t` and `int` quantities are `Nat` and `Int`; none of the computations
  of `u8.c` leaves the range of its C type for buffers shorter than `2^30`
  bytes (the only unbounded quantity is the running total of
  `neo4j_u8cswidth`, at most two columns per byte);
* an `int` result `-1` is the C error return;
* loops are recursions on a fuel counter; the entry points supply the fuel,
  and `none` is the outcome of a loop that has not finished within it.
-/

set_option maxRecDepth 100000

namespace U8

/-! ## Definitions -/

/-- Byte `i` of the buffer `s`, as read through `const uint8_t *b`. -/
def byteAt (s : List Nat) (i : Nat) : Nat :=
  s.getD i 0 % 256

/-- Modelled from the spec: the `REQUIRE(cond, res)` guard of `util.h`, which is
not among the sources. When `cond` does not hold the enclosing function returns
`res` at once (the "invalid argument" outcome); otherwise it goes on with `k`. -/
def REQUIRE (cond : Bool) (res : Int) (k : Int) : Int :=
  if cond then k else res

/-- The function `neo4j_u8clen` of `u8.c`, lines 23-99: the length of the UTF-8
sequence at the start of `s`, `0` at a terminator, `-1` when invalid. The buffer
is a list, so the `s != NULL` half of the guard always holds. -/
def neo4j_u8clen (s : List Nat) (n : Nat) : Int :=
  REQUIRE (decide (n > 0)) (-1) <|
    let c := byteAt s 0
    if c = 0 then 0
    else if c < 0x80 then 1
    else if c < 0xC2 then -1
    else if c < 0xE0 then
      if n < 2 ∨ (byteAt s 1 &&& 0x80) ≠ 0x80 then -1
      else 2
    else if c < 0xF0 then
      if n < 3 ∨ (byteAt s 1 &&& 0x80) ≠ 0x80 ∨ (byteAt s 2 &&& 0x80) ≠ 0x80 then -1
      else if c = 0xE0 ∧ byteAt s 1 < 0xA0 then -1
      else if c = 0xED ∧ byteAt s 1 ≥ 0xA0 then -1
      else 3
    else if c < 0xF8 then
      if n < 4 ∨ (byteAt s 1 &&& 0x80) ≠ 0x80 ∨ (byteAt s 2 &&& 0x80) ≠ 0x80 ∨
          (byteAt s 3 &&& 0x80) ≠ 0x80 then -1
      else if c = 0xF0 ∧ byteAt s 1 < 0x90 then -1
      else if c > 0xF4 ∨ (c = 0xF4 ∧ byteAt s 1 ≥ 0x90) then -1
      else 4
    else -1

/-- The function `neo4j_u8codepoint` of `u8.c`, lines 102-129. The result is the
pair of the returned `int` and the value of `*n` on return: `*n` is written only
after the length check has passed. The last branch is the `default:` of the
`switch`, whose `assert(bytes == 4)` is not executed here. -/
def neo4j_u8codepoint (s : List Nat) (n : Nat) : Int × Nat :=
  let bytes := neo4j_u8clen s n
  if bytes < 0 then (-1, n)
  else
    let n' := bytes.toNat
    if bytes = 0 then (0, n')
    else if bytes = 1 then ((byteAt s 0 : Nat), n')
    else if bytes = 2 then
      ((((byteAt s 0 &&& 0x1F) <<< 6) ||| (byteAt s 1 &&& 0x3F) : Nat), n')
    else if bytes = 3 then
      ((((byteAt s 0 &&& 0x0F) <<< 12) ||| ((byteAt s 1 &&& 0x3F) <<< 6) |||
          (byteAt s 1 &&& 0x3F) : Nat), n')
    else
      ((((byteAt s 0 &&& 0x07) <<< 12) ||| ((byteAt s 1 &&& 0x3F) <<< 6) |||
          (byteAt s 1 &&& 0x3F) : Nat), n')

/-- The `struct interval` of `u8.c`, lines 132-136. -/
structure interval where
  first : Int
  last : Int

/-- The entry `table[i]` of an interval table. -/
def tableAt (table : List interval) (i : Int) : interval :=
  table.getD i.toNat ⟨0, 0⟩

/-- The `while (max >= min)` loop of `bisearch`, lines 149-164, on a fuel
counter; `mid = (min + max) / 2` is C's truncating division. -/
def bisearchLoop : Nat → Int → List interval → Int → Int → Option Int
  | 0, _, _, _, _ => none
  | fuel + 1, cp, table, min, max =>
    if max ≥ min then
      let mid := (min + max).tdiv 2
      if cp > (tableAt table mid).last then bisearchLoop fuel cp table (mid + 1) max
      else if cp < (tableAt table mid).first then bisearchLoop fuel cp table min (mid - 1)
      else some 1
    else some 0

/-- The function `bisearch` of `u8.c`, lines 140-167. The loop is given
`max + 2` rounds. -/
def bisearch (cp : Int) (table : List interval) (max : Int) : Option Int :=
  if cp < (tableAt table 0).first ∨ cp > (tableAt table max).last then some 0
  else bisearchLoop (max.toNat + 2) cp table 0 max

/-- The table `combining` of `neo4j_u8cpwidth`, lines 176-218. -/
def combining : List interval :=
  [ interval.mk 0x0300 0x0357, interval.mk 0x035D 0x036F, interval.mk 0x0483 0x0486,
    interval.mk 0x0488 0x0489, interval.mk 0x0591 0x05A1, interval.mk 0x05A3 0x05B9,
    interval.mk 0x05BB 0x05BD, interval.mk 0x05BF 0x05BF, interval.mk 0x05C1 0x05C2,
    interval.mk 0x05C4 0x05C4, interval.mk 0x0600 0x0603, interval.mk 0x0610 0x0615,
    interval.mk 0x064B 0x0658, interval.mk 0x0670 0x0670, interval.mk 0x06D6 0x06E4,
    interval.mk 0x06E7 0x06E8, interval.mk 0x06EA 0x06ED, interval.mk 0x070F 0x070F,
    interval.mk 0x0711 0x0711, interval.mk 0x0730 0x074A, interval.mk 0x07A6 0x07B0,
    interval.mk 0x0901 0x0902, interval.mk 0x093C 0x093C, interval.mk 0x0941 0x0948,
    interval.mk 0x094D 0x094D, interval.mk 0x0951 0x0954, interval.mk 0x0962 0x0963,
    interval.mk 0x0981 0x0981, interval.mk 0x09BC 0x09BC, interval.mk 0x09C1 0x09C4,
    interval.mk 0x09CD 0x09CD, interval.mk 0x09E2 0x09E3, interval.mk 0x0A01 0x0A02,
    interval.mk 0x0A3C 0x0A3C, interval.mk 0x0A41 0x0A42, interval.mk 0x0A47 0x0A48,
    interval.mk 0x0A4B 0x0A4D, interval.mk 0x0A70 0x0A71, interval.mk 0x0A81 0x0A82,
    interval.mk 0x0ABC 0x0ABC, interval.mk 0x0AC1 0x0AC5, interval.mk 0x0AC7 0x0AC8,
    interval.mk 0x0ACD 0x0ACD, interval.mk 0x0AE2 0x0AE3, interval.mk 0x0B01 0x0B01,
    interval.mk 0x0B3C 0x0B3C, interval.mk 0x0B3F 0x0B3F, interval.mk 0x0B41 0x0B43,
    interval.mk 0x0B4D 0x0B4D, interval.mk 0x0B56 0x0B56, interval.mk 0x0B82 0x0B82,
    interval.mk 0x0BC0 0x0BC0, interval.mk 0x0BCD 0x0BCD, interval.mk 0x0C3E 0x0C40,
    interval.mk 0x0C46 0x0C48, interval.mk 0x0C4A 0x0C4D, interval.mk 0x0C55 0x0C56,
    interval.mk 0x0CBC 0x0CBC, interval.mk 0x0CBF 0x0CBF, interval.mk 0x0CC6 0x0CC6,
    interval.mk 0x0CCC 0x0CCD, interval.mk 0x0D41 0x0D43, interval.mk 0x0D4D 0x0D4D,
    interval.mk 0x0DCA 0x0DCA, interval.mk 0x0DD2 0x0DD4, interval.mk 0x0DD6 0x0DD6,
    interval.mk 0x0E31 0x0E31, interval.mk 0x0E34 0x0E3A, interval.mk 0x0E47 0x0E4E,
    interval.mk 0x0EB1 0x0EB1, interval.mk 0x0EB4 0x0EB9, interval.mk 0x0EBB 0x0EBC,
    interval.mk 0x0EC8 0x0ECD, interval.mk 0x0F18 0x0F19, interval.mk 0x0F35 0x0F35,
    interval.mk 0x0F37 0x0F37, interval.mk 0x0F39 0x0F39, interval.mk 0x0F71 0x0F7E,
    interval.mk 0x0F80 0x0F84, interval.mk 0x0F86 0x0F87, interval.mk 0x0F90 0x0F97,
    interval.mk 0x0F99 0x0FBC, interval.mk 0x0FC6 0x0FC6, interval.mk 0x102D 0x1030,
    interval.mk 0x1032 0x1032, interval.mk 0x1036 0x1037, interval.mk 0x1039 0x1039,
    interval.mk 0x1058 0x1059, interval.mk 0x1160 0x11FF, interval.mk 0x1712 0x1714,
    interval.mk 0x1732 0x1734, interval.mk 0x1752 0x1753, interval.mk 0x1772 0x1773,
    interval.mk 0x17B4 0x17B5, interval.mk 0x17B7 0x17BD, interval.mk 0x17C6 0x17C6,
    interval.mk 0x17C9 0x17D3, interval.mk 0x17DD 0x17DD, interval.mk 0x180B 0x180D,
    interval.mk 0x18A9 0x18A9, interval.mk 0x1920 0x1922, interval.mk 0x1927 0x1928,
    interval.mk 0x1932 0x1932, interval.mk 0x1939 0x193B, interval.mk 0x200B 0x200F,
    interval.mk 0x202A 0x202E, interval.mk 0x2060 0x2063, interval.mk 0x206A 0x206F,
    interval.mk 0x20D0 0x20EA, interval.mk 0x302A 0x302F, interval.mk 0x3099 0x309A,
    interval.mk 0xFB1E 0xFB1E, interval.mk 0xFE00 0xFE0F, interval.mk 0xFE20 0xFE23,
    interval.mk 0xFEFF 0xFEFF, interval.mk 0xFFF9 0xFFFB, interval.mk 0x1D167 0x1D169,
    interval.mk 0x1D173 0x1D182, interval.mk 0x1D185 0x1D18B, interval.mk 0x1D1AA 0x1D1AD,
    interval.mk 0xE0001 0xE0001, interval.mk 0xE0020 0xE007F, interval.mk 0xE0100 0xE01EF ]

/-- The function `neo4j_u8cpwidth` of `u8.c`, lines 171-246: the column width of
a codepoint, `-1` for a control character. The third argument of `bisearch` is
`sizeof(combining) / sizeof(struct interval) - 1`. -/
def neo4j_u8cpwidth (cp : Int) : Option Int :=
  if cp < 32 ∨ (cp ≥ 0x7F ∧ cp < 0xA0) then some (-1)
  else
    match bisearch cp combining ((combining.length : Int) - 1) with
    | none => none
    | some found =>
      if found ≠ 0 then some 0
      else
        some (1 +
          (if cp ≥ 0x1100 ∧
              (cp ≤ 0x115F ∨
               cp = 0x2329 ∨ cp = 0x232A ∨
               (cp ≥ 0x2E80 ∧ cp ≤ 0xA4CF ∧ cp ≠ 0x303F) ∨
               (cp ≥ 0xAC00 ∧ cp ≤ 0xD7A3) ∨
               (cp ≥ 0xF900 ∧ cp ≤ 0xFAFF) ∨
               (cp ≥ 0xFE10 ∧ cp ≤ 0xFE19) ∨
               (cp ≥ 0xFE30 ∧ cp ≤ 0xFE6F) ∨
               (cp ≥ 0xFF00 ∧ cp ≤ 0xFF60) ∨
               (cp ≥ 0xFFE0 ∧ cp ≤ 0xFFE6) ∨
               (cp ≥ 0x20000 ∧ cp ≤ 0x2FFFD) ∨
               (cp ≥ 0x30000 ∧ cp ≤ 0x3FFFD)) then 1 else 0))

/-- The function `neo4j_u8cwidth` of `u8.c`, lines 249-257. -/
def neo4j_u8cwidth (s : List Nat) (n : Nat) : Option Int :=
  let cp := (neo4j_u8codepoint s n).1
  if cp < 0 then some (-1)
  else neo4j_u8cpwidth cp

/-- The `do ... while (n > 0 && *s != 0)` loop of `neo4j_u8cswidth`, lines
263-280, on a fuel counter: `s` is the rest of the buffer, `n` the bytes left
and `width` the running total. The pointer step `s += b` drops `b` bytes; the
`assert(b <= n)` is not executed here, and `n - b` is exact because the decoder
never reports more than `n` bytes. -/
def cswidthLoop : Nat → List Nat → Nat → Int → Option Int
  | 0, _, _, _ => none
  | fuel + 1, s, n, width =>
    let r := neo4j_u8codepoint s n
    let cp := r.1
    let b := r.2
    if cp < 0 then some (-1)
    else
      match neo4j_u8cpwidth cp with
      | none => none
      | some w =>
        if w < 0 then some (-1)
        else
          let width := width + w
          let s := s.drop b
          let n := n - b
          if n > 0 ∧ byteAt s 0 ≠ 0 then cswidthLoop fuel s n width
          else some width

/-- The function `neo4j_u8cswidth` of `u8.c`, lines 260-283. The loop is given
`n + 1` rounds: each round that goes on consumes at least one byte. -/
def neo4j_u8cswidth (s : List Nat) (n : Nat) : Option Int :=
  cswidthLoop (n + 1) s n 0

/-! ## Reference notions of the specification -/

/-- A Unicode scalar value: at most `0x10FFFF` and not a surrogate. -/
def isScalar (cp : Nat) : Prop :=
  cp ≤ 0x10FFFF ∧ ¬ (0xD800 ≤ cp ∧ cp ≤ 0xDFFF)

instance (cp : Nat) : Decidable (isScalar cp) := by
  unfold isScalar; infer_instance

/-- The length of the standard UTF-8 encoding of `cp`. -/
def utf8Len (cp : Nat) : Nat :=
  if cp < 0x80 then 1 else if cp < 0x800 then 2 else if cp < 0x10000 then 3 else 4

/-- The standard UTF-8 encoding of `cp` (Unicode Standard, table 3-6). -/
def utf8Encode (cp : Nat) : List Nat :=
  if cp < 0x80 then [cp]
  else if cp < 0x800 then
    [0xC0 ||| (cp >>> 6), 0x80 ||| (cp &&& 0x3F)]
  else if cp < 0x10000 then
    [0xE0 ||| (cp >>> 12), 0x80 ||| ((cp >>> 6) &&& 0x3F), 0x80 ||| (cp &&& 0x3F)]
  else
    [0xF0 ||| (cp >>> 18), 0x80 ||| ((cp >>> 12) &&& 0x3F),
      0x80 ||| ((cp >>> 6) &&& 0x3F), 0x80 ||| (cp &&& 0x3F)]

/-- A continuation byte `10xxxxxx`. -/
def isCont (b : Nat) : Prop :=
  0x80 ≤ b ∧ b ≤ 0xBF

instance (b : Nat) : Decidable (isCont b) := by
  unfold isCont; infer_instance

/-- The bytes `bs` are the well-formed UTF-8 encoding of one scalar value. -/
def wellFormed (bs : List Nat) : Prop :=
  ∃ cp, isScalar cp ∧ utf8Encode cp = bs

/-- The value carried by a two-byte form `110xxxxx 10xxxxxx`. -/
def payload2 (b0 b1 : Nat) : Nat :=
  ((b0 &&& 0x1F) <<< 6) ||| (b1 &&& 0x3F)

/-- The value carried by a three-byte form `1110xxxx 10xxxxxx 10xxxxxx`. -/
def payload3 (b0 b1 b2 : Nat) : Nat :=
  ((b0 &&& 0x0F) <<< 12) ||| ((b1 &&& 0x3F) <<< 6) ||| (b2 &&& 0x3F)

/-- The value carried by a four-byte form `11110xxx 10xxxxxx 10xxxxxx 10xxxxxx`. -/
def payload4 (b0 b1 b2 b3 : Nat) : Nat :=
  ((b0 &&& 0x07) <<< 18) ||| ((b1 &&& 0x3F) <<< 12) ||| ((b2 &&& 0x3F) <<< 6) |||
    (b3 &&& 0x3F)

/-- The buffer starts with bytes that have the bit pattern of a multi-byte form
but carry an overlong, surrogate or too large value, or with a lead byte that is
a continuation byte or is `0xF8` or more. -/
def illFormed (s : List Nat) : Prop :=
  let b0 := byteAt s 0
  let b1 := byteAt s 1
  let b2 := byteAt s 2
  let b3 := byteAt s 3
  (0xC0 ≤ b0 ∧ b0 ≤ 0xDF ∧ isCont b1 ∧ payload2 b0 b1 < 0x80) ∨
  (0xE0 ≤ b0 ∧ b0 ≤ 0xEF ∧ isCont b1 ∧ isCont b2 ∧
    (payload3 b0 b1 b2 < 0x800 ∨ (0xD800 ≤ payload3 b0 b1 b2 ∧ payload3 b0 b1 b2 ≤ 0xDFFF))) ∨
  (0xF0 ≤ b0 ∧ b0 ≤ 0xF7 ∧ isCont b1 ∧ isCont b2 ∧ isCont b3 ∧
    (payload4 b0 b1 b2 b3 < 0x10000 ∨ 0x10FFFF < payload4 b0 b1 b2 b3)) ∨
  (0x80 ≤ b0 ∧ b0 ≤ 0xBF) ∨
  0xF8 ≤ b0

instance (s : List Nat) : Decidable (illFormed s) := by
  unfold illFormed; infer_instance

/-- The length of the encoding that a lead byte announces. -/
def impliedLen (c : Nat) : Option Nat :=
  if 0xC2 ≤ c ∧ c ≤ 0xDF then some 2
  else if 0xE0 ≤ c ∧ c ≤ 0xEF then some 3
  else if 0xF0 ≤ c ∧ c ≤ 0xF7 then some 4
  else none

/-- Plain linear membership of `cp` in the closed intervals of a table. -/
def inTable (table : List interval) (cp : Int) : Bool :=
  table.any (fun iv => decide (iv.first ≤ cp ∧ cp ≤ iv.last))

/-- The table invariant: every interval is non-empty and lies strictly below the
next one. -/
def tableInv (table : List interval) : Prop :=
  (∀ iv ∈ table, iv.first ≤ iv.last) ∧ List.Chain' (fun a b => a.last < b.first) table

/-- The wide ranges of the reference classification. -/
def isWide (cp : Int) : Prop :=
  (0x1100 ≤ cp ∧ cp ≤ 0x115F) ∨ cp = 0x2329 ∨ cp = 0x232A ∨
  (0x2E80 ≤ cp ∧ cp ≤ 0xA4CF ∧ cp ≠ 0x303F) ∨
  (0xAC00 ≤ cp ∧ cp ≤ 0xD7A3) ∨ (0xF900 ≤ cp ∧ cp ≤ 0xFAFF) ∨
  (0xFE10 ≤ cp ∧ cp ≤ 0xFE19) ∨ (0xFE30 ≤ cp ∧ cp ≤ 0xFE6F) ∨
  (0xFF00 ≤ cp ∧ cp ≤ 0xFF60) ∨ (0xFFE0 ≤ cp ∧ cp ≤ 0xFFE6) ∨
  (0x20000 ≤ cp ∧ cp ≤ 0x2FFFD) ∨ (0x30000 ≤ cp ∧ cp ≤ 0x3FFFD)

instance (cp : Int) : Decidable (isWide cp) := by
  unfold isWide; infer_instance

/-- The reference classification of the column width of a codepoint. -/
def refWidth (cp : Int) : Int :=
  if cp < 32 ∨ (0x7F ≤ cp ∧ cp < 0xA0) then -1
  else if inTable combining cp then 0
  else if isWide cp then 2
  else 1

/-- The codepoint `cp` lies in the interval `table[i]`. -/
def hit (table : List interval) (cp : Int) (i : Int) : Prop :=
  (tableAt table i).first ≤ cp ∧ cp ≤ (tableAt table i).last

/-- A check of the table invariant by one pass over the table. -/
def checkTable : List interval → Bool
  | [] => true
  | [a] => decide (a.first ≤ a.last)
  | a :: b :: rest =>
    decide (a.first ≤ a.last) && decide (a.last < b.first) && checkTable (b :: rest)

/-! ## Instrumented loops and the fold of the specification -/

/-- The indices at which the loop of `bisearch` reads the table, in order: the
`mid` of every round (lines 151-156), on the fuel counter of `bisearchLoop`. -/
def bisearchLoopProbes : Nat → Int → List interval → Int → Int → List Int
  | 0, _, _, _, _ => []
  | fuel + 1, cp, table, min, max =>
    if max ≥ min then
      let mid := (min + max).tdiv 2
      if cp > (tableAt table mid).last then
        mid :: bisearchLoopProbes fuel cp table (mid + 1) max
      else if cp < (tableAt table mid).first then
        mid :: bisearchLoopProbes fuel cp table min (mid - 1)
      else [mid]
    else []

/-- The indices at which `bisearch` reads the table, in order: `0` and, when the
first half of the range test of line 145 fails, `max`; then those of the loop. -/
def bisearchProbes (cp : Int) (table : List interval) (max : Int) : List Int :=
  if cp < (tableAt table 0).first then [0]
  else if cp > (tableAt table max).last then [0, max]
  else 0 :: max :: bisearchLoopProbes (max.toNat + 2) cp table 0 max

/-- The number of times the body of the loop of `neo4j_u8cswidth` (lines 265-279)
is entered, counted along the loop on the same fuel counter: a round that
returns counts 1, a round that goes on counts 1 more than the rest. -/
def cswidthRounds : Nat → List Nat → Nat → Nat
  | 0, _, _ => 0
  | fuel + 1, s, n =>
    let r := neo4j_u8codepoint s n
    let cp := r.1
    let b := r.2
    if cp < 0 then 1
    else
      match neo4j_u8cpwidth cp with
      | none => 1
      | some w =>
        if w < 0 then 1
        else
          let s := s.drop b
          let n := n - b
          if n > 0 ∧ byteAt s 0 ≠ 0 then 1 + cswidthRounds fuel s n
          else 1

/-- The characters of a buffer as the specification describes them: apply
`neo4j_u8codepoint` repeatedly from the start, each time advancing by the bytes
consumed, until the next byte is `0` or the `n` available bytes are consumed;
`none` when a decode is invalid. The recursion is on a fuel counter, one unit per
character. -/
def specChars : Nat → List Nat → Nat → Option (List Int)
  | 0, _, _ => some []
  | fuel + 1, s, n =>
    if n = 0 ∨ byteAt s 0 = 0 then some []
    else
      let r := neo4j_u8codepoint s n
      if r.1 < 0 then none
      else (specChars fuel (s.drop r.2) (n - r.2)).map (fun cs => r.1 :: cs)

/-- The all-or-nothing total of the specification: the sum of the widths of the
characters when every decode succeeded and every width is non-negative, and
`-1` otherwise. -/
def sumWidths (chars : Option (List Int)) : Int :=
  match chars with
  | none => -1
  | some cs =>
    if cs.all (fun c => decide (0 ≤ refWidth c)) then (cs.map refWidth).sum else -1

/-- The width of a string as the specification describes it: the all-or-nothing
fold of the decoder and the width of a codepoint over the `n` available bytes. -/
def specWidth (s : List Nat) (n : Nat) : Int :=
  sumWidths (specChars n s n)

end U8

/-! ## The canned result stream of the tests (`tests/canned_result_stream.c`) -/

namespace Canned

/-- The `struct canned_result` of `canned_result_stream.c`, lines 26-31: a result
that wraps one record. `Value` stands for the type `neo4j_value_t`, which is
declared outside the sources; the function pointers of `_result` are left out. -/
structure canned_result (Value : Type) where
  list : Value

/-- The `struct canned_result_stream`, lines 35-46, without the function
pointers of `_result_stream`. The array `results` is a list, and a null
`error_message` is `none`. -/
structure canned_result_stream (Value : Type) where
  fieldnames : List String
  nfields : Nat
  results : List (canned_result Value)
  nresults : Nat
  next_result : Nat
  error_message : Option String

/-- The function `neo4j_canned_result_stream`, lines 65-100. `cr_allocated` tells
whether the `calloc` of the results succeeded: when `nrecords > 0` and it did
not, the function returns `NULL`, here `none`. The loop copies `records[i]` for
`i < nrecords`; the `calloc` of the stream leaves `next_result` at 0 and
`error_message` null. -/
def neo4j_canned_result_stream {Value : Type} (cr_allocated : Bool)
    (fieldnames : List String) (nfields : Nat) (records : List Value) (nrecords : Nat) :
    Option (canned_result_stream Value) :=
  if nrecords > 0 ∧ cr_allocated = false then none
  else
    some
      { fieldnames := fieldnames
        nfields := nfields
        results := (records.take nrecords).map canned_result.mk
        nresults := nrecords
        next_result := 0
        error_message := none }

/-- The function `neo4j_crs_set_error`, lines 103-107. -/
def neo4j_crs_set_error {Value : Type} (crs : canned_result_stream Value)
    (msg : Option String) : canned_result_stream Value :=
  { crs with error_message := msg }

/-- The function `crs_check_failure`, lines 110-114. -/
def crs_check_failure {Value : Type} (crs : canned_result_stream Value) : Int :=
  if crs.error_message = none then 0 else 1

/-- The function `crs_error_message`, lines 123-127. -/
def crs_error_message {Value : Type} (crs : canned_result_stream Value) : Option String :=
  crs.error_message

/-- The function `crs_nfields`, lines 130-134. -/
def crs_nfields {Value : Type} (crs : canned_result_stream Value) : Nat :=
  crs.nfields

/-- The function `crs_fieldname`, lines 137-146; `NULL` is `none`. -/
def crs_fieldname {Value : Type} (crs : canned_result_stream Value) (index : Nat) :
    Option String :=
  if index ≥ crs.nfields then none
  else crs.fieldnames[index]?

/-- The function `crs_fetch_next`, lines 149-157. The result is the pair of the
returned pointer and the stream afterwards: the pointer `&results[i]` is the
index `some i`, and `NULL` is `none`. -/
def crs_fetch_next {Value : Type} (crs : canned_result_stream Value) :
    Option Nat × canned_result_stream Value :=
  if crs.next_result ≥ crs.nresults then (none, crs)
  else (some crs.next_result, { crs with next_result := crs.next_result + 1 })

/-- The operations on a stream that is open; `crs_close` ends its life. -/
inductive crs_op where
  | fetch_next
  | set_error (msg : Option String)
  | check_failure
  | error_code
  | error_message
  | nfields
  | fieldname (index : Nat)

/-- The stream after one operation: only `crs_fetch_next` and
`neo4j_crs_set_error` write to it. -/
def crs_apply {Value : Type} (crs : canned_result_stream Value) :
    crs_op → canned_result_stream Value
  | crs_op.fetch_next => (crs_fetch_next crs).2
  | crs_op.set_error msg => neo4j_crs_set_error crs msg
  | _ => crs

/-- The stream after a sequence of operations. -/
def crs_run {Value : Type} (crs : canned_result_stream Value) (ops : List crs_op) :
    canned_result_stream Value :=
  ops.foldl crs_apply crs

/-- The stream after `k` calls to `crs_fetch_next`. -/
def crs_fetched {Value : Type} : Nat → canned_result_stream Value → canned_result_stream Value
  | 0, crs => crs
  | k + 1, crs => crs_fetched k (crs_fetch_next crs).2

end Canned

namespace U8

/-! ## Theorems

### Bytes and bit operations -/

theorem byteAt_lt (s : List Nat) (i : Nat) : byteAt s i < 256 := by
  unfold byteAt; omega

theorem byteAt_cons_zero (a : Nat) (s : List Nat) : byteAt (a :: s) 0 = a % 256 := by
  simp [byteAt]

theorem byteAt_cons_succ (a : Nat) (s : List Nat) (i : Nat) :
    byteAt (a :: s) (i + 1) = byteAt s i := by
  simp [byteAt]

theorem and_80_ne (x : Nat) (h : x < 256) : (x &&& 0x80) ≠ 0x80 ↔ x < 0x80 := by
  interval_cases x <;> decide

theorem and_mask (x k : Nat) : x &&& (2 ^ k - 1) = x % 2 ^ k :=
  Nat.and_pow_two_sub_one_eq_mod x k

theorem shl_or (a b k : Nat) (h : b < 2 ^ k) : (a <<< k) ||| b = a * 2 ^ k + b := by
  rw [Nat.shiftLeft_eq, Nat.mul_comm a, ← Nat.mul_add_lt_is_or h]

theorem and_1F (x : Nat) : x &&& 0x1F = x % 32 := and_mask x 5
theorem and_3F (x : Nat) : x &&& 0x3F = x % 64 := and_mask x 6
theorem and_0F (x : Nat) : x &&& 0x0F = x % 16 := and_mask x 4
theorem and_07 (x : Nat) : x &&& 0x07 = x % 8 := and_mask x 3

theorem payload2_eq (b0 b1 : Nat) : payload2 b0 b1 = b0 % 32 * 64 + b1 % 64 := by
  unfold payload2
  rw [and_1F, and_3F, shl_or _ _ 6 (by omega)]
  omega

theorem payload3_eq (b0 b1 b2 : Nat) :
    payload3 b0 b1 b2 = b0 % 16 * 4096 + b1 % 64 * 64 + b2 % 64 := by
  unfold payload3
  rw [and_0F, and_3F, and_3F, Nat.or_assoc, shl_or (b1 % 64) _ 6 (by omega),
    shl_or _ _ 12 (by omega)]
  omega

theorem payload4_eq (b0 b1 b2 b3 : Nat) :
    payload4 b0 b1 b2 b3 = b0 % 8 * 262144 + b1 % 64 * 4096 + b2 % 64 * 64 + b3 % 64 := by
  unfold payload4
  rw [and_07, and_3F, and_3F, and_3F, Nat.or_assoc, Nat.or_assoc,
    shl_or (b2 % 64) _ 6 (by omega), shl_or (b1 % 64) _ 12 (by omega),
    shl_or _ _ 18 (by omega)]
  omega

theorem or_80 (y : Nat) (h : y < 64) : 0x80 ||| y = 0x80 + y := by
  interval_cases y <;> rfl

theorem or_C0 (y : Nat) (h : y < 32) : 0xC0 ||| y = 0xC0 + y := by
  interval_cases y <;> rfl

theorem or_E0 (y : Nat) (h : y < 16) : 0xE0 ||| y = 0xE0 + y := by
  interval_cases y <;> rfl

theorem or_F0 (y : Nat) (h : y < 8) : 0xF0 ||| y = 0xF0 + y := by
  interval_cases y <;> rfl

/-- The standard encoding in arithmetic form. -/
theorem utf8Encode_eq (cp : Nat) (h : cp ≤ 0x10FFFF) :
    utf8Encode cp =
      if cp < 0x80 then [cp]
      else if cp < 0x800 then [0xC0 + cp / 64, 0x80 + cp % 64]
      else if cp < 0x10000 then [0xE0 + cp / 4096, 0x80 + cp / 64 % 64, 0x80 + cp % 64]
      else [0xF0 + cp / 262144, 0x80 + cp / 4096 % 64, 0x80 + cp / 64 % 64, 0x80 + cp % 64] := by
  unfold utf8Encode
  simp only [and_3F, Nat.shiftRight_eq_div_pow]
  split_ifs with h1 h2 h3
  · rfl
  · rw [or_C0 _ (by omega), or_80 _ (by omega)]
  · rw [or_E0 _ (by omega), or_80 _ (by omega), or_80 _ (by omega)]
  · rw [or_F0 _ (by omega), or_80 _ (by omega), or_80 _ (by omega), or_80 _ (by omega)]

/-- The validator in terms of comparisons of bytes. -/
theorem neo4j_u8clen_eq (s : List Nat) (n : Nat) :
    neo4j_u8clen s n =
      if n = 0 then -1
      else if byteAt s 0 = 0 then 0
      else if byteAt s 0 < 0x80 then 1
      else if byteAt s 0 < 0xC2 then -1
      else if byteAt s 0 < 0xE0 then
        if n < 2 ∨ byteAt s 1 < 0x80 then -1 else 2
      else if byteAt s 0 < 0xF0 then
        if n < 3 ∨ byteAt s 1 < 0x80 ∨ byteAt s 2 < 0x80 then -1
        else if byteAt s 0 = 0xE0 ∧ byteAt s 1 < 0xA0 then -1
        else if byteAt s 0 = 0xED ∧ byteAt s 1 ≥ 0xA0 then -1
        else 3
      else if byteAt s 0 < 0xF8 then
        if n < 4 ∨ byteAt s 1 < 0x80 ∨ byteAt s 2 < 0x80 ∨ byteAt s 3 < 0x80 then -1
        else if byteAt s 0 = 0xF0 ∧ byteAt s 1 < 0x90 then -1
        else if byteAt s 0 > 0xF4 ∨ (byteAt s 0 = 0xF4 ∧ byteAt s 1 ≥ 0x90) then -1
        else 4
      else -1 := by
  unfold neo4j_u8clen REQUIRE
  simp only [and_80_ne _ (byteAt_lt s _)]
  by_cases hn : n = 0
  · simp [hn]
  · have : n > 0 := Nat.pos_of_ne_zero hn
    simp [hn, this]

/-! ## The validator and the decoder, case by case -/

theorem neo4j_u8clen_range (s : List Nat) (n : Nat) :
    neo4j_u8clen s n = -1 ∨
      (0 ≤ neo4j_u8clen s n ∧ neo4j_u8clen s n ≤ 4 ∧ neo4j_u8clen s n ≤ (n : Int)) := by
  have h := neo4j_u8clen_eq s n
  generalize neo4j_u8clen s n = r at h ⊢
  simp only [eq_ite_iff] at h
  omega

theorem neo4j_u8clen_eq_zero (s : List Nat) (n : Nat) (h : neo4j_u8clen s n = 0) :
    0 < n ∧ byteAt s 0 = 0 := by
  rw [neo4j_u8clen_eq] at h
  simp only [ite_eq_iff] at h
  omega

theorem neo4j_u8clen_eq_one (s : List Nat) (n : Nat) (h : neo4j_u8clen s n = 1) :
    0 < n ∧ 0 < byteAt s 0 ∧ byteAt s 0 < 0x80 := by
  rw [neo4j_u8clen_eq] at h
  simp only [ite_eq_iff] at h
  omega

theorem neo4j_u8clen_eq_two (s : List Nat) (n : Nat) (h : neo4j_u8clen s n = 2) :
    2 ≤ n ∧ 0xC2 ≤ byteAt s 0 ∧ byteAt s 0 < 0xE0 ∧ 0x80 ≤ byteAt s 1 := by
  rw [neo4j_u8clen_eq] at h
  simp only [ite_eq_iff] at h
  omega

theorem neo4j_u8clen_eq_three (s : List Nat) (n : Nat) (h : neo4j_u8clen s n = 3) :
    3 ≤ n ∧ 0xE0 ≤ byteAt s 0 ∧ byteAt s 0 < 0xF0 ∧ 0x80 ≤ byteAt s 1 ∧ 0x80 ≤ byteAt s 2 ∧
      (byteAt s 0 = 0xE0 → 0xA0 ≤ byteAt s 1) ∧ (byteAt s 0 = 0xED → byteAt s 1 < 0xA0) := by
  rw [neo4j_u8clen_eq] at h
  simp only [ite_eq_iff] at h
  omega

theorem neo4j_u8clen_eq_four (s : List Nat) (n : Nat) (h : neo4j_u8clen s n = 4) :
    4 ≤ n ∧ 0xF0 ≤ byteAt s 0 ∧ byteAt s 0 ≤ 0xF4 ∧ 0x80 ≤ byteAt s 1 ∧ 0x80 ≤ byteAt s 2 ∧
      0x80 ≤ byteAt s 3 ∧ (byteAt s 0 = 0xF0 → 0x90 ≤ byteAt s 1) ∧
      (byteAt s 0 = 0xF4 → byteAt s 1 < 0x90) := by
  rw [neo4j_u8clen_eq] at h
  simp only [ite_eq_iff] at h
  omega

/-- The value that the three-byte branch of the decoder computes. -/
theorem decode3_eq (b0 b1 : Nat) :
    ((b0 &&& 0x0F) <<< 12) ||| ((b1 &&& 0x3F) <<< 6) ||| (b1 &&& 0x3F) =
      b0 % 16 * 4096 + b1 % 64 * 64 + b1 % 64 :=
  payload3_eq b0 b1 b1

/-- The value that the four-byte branch of the decoder computes. -/
theorem decode4_eq (b0 b1 : Nat) :
    ((b0 &&& 0x07) <<< 12) ||| ((b1 &&& 0x3F) <<< 6) ||| (b1 &&& 0x3F) =
      b0 % 8 * 4096 + b1 % 64 * 64 + b1 % 64 := by
  rw [and_07, and_3F, Nat.or_assoc, shl_or (b1 % 64) _ 6 (by omega),
    shl_or _ _ 12 (by omega)]
  omega

/-- The decoder in arithmetic form, by the length that the validator reports. -/
theorem neo4j_u8codepoint_eq (s : List Nat) (n : Nat) :
    neo4j_u8codepoint s n =
      if neo4j_u8clen s n = -1 then ((-1 : Int), n)
      else if neo4j_u8clen s n = 0 then ((0 : Int), 0)
      else if neo4j_u8clen s n = 1 then (((byteAt s 0 : Nat) : Int), 1)
      else if neo4j_u8clen s n = 2 then
        (((byteAt s 0 % 32 * 64 + byteAt s 1 % 64 : Nat) : Int), 2)
      else if neo4j_u8clen s n = 3 then
        (((byteAt s 0 % 16 * 4096 + byteAt s 1 % 64 * 64 + byteAt s 1 % 64 : Nat) : Int), 3)
      else
        (((byteAt s 0 % 8 * 4096 + byteAt s 1 % 64 * 64 + byteAt s 1 % 64 : Nat) : Int), 4) := by
  unfold neo4j_u8codepoint
  simp only [decode3_eq, decode4_eq, ← payload2.eq_1, payload2_eq]
  rcases neo4j_u8clen_range s n with h | ⟨h0, h4, -⟩
  · simp [h]
  · have hneg : ¬ neo4j_u8clen s n < 0 := by omega
    have hne : neo4j_u8clen s n ≠ -1 := by omega
    simp only [hneg, hne, if_false]
    split_ifs with h0 h1 h2 h3
    · simp [h0]
    · simp [h1]
    · simp [h2]
    · simp [h3]
    · have : neo4j_u8clen s n = 4 := by omega
      simp [this]

/-! ## Binary search in an interval table -/

theorem tableAt_eq (t : List interval) (i : Nat) (hi : i < t.length) :
    tableAt t (i : Int) = t[i] := by
  unfold tableAt
  rw [Int.toNat_natCast, List.getD_eq_getElem t _ hi]

theorem tableInv_lt (t : List interval) (hinv : tableInv t) (i j : Nat)
    (hij : i < j) (hj : j < t.length) :
    (tableAt t (i : Int)).last < (tableAt t (j : Int)).first := by
  have hc : List.Chain' (fun a b : interval => a.last < b.first ∧ b.first ≤ b.last) t :=
    (List.Chain'.iff_mem.mp hinv.2).imp (fun a b hab => ⟨hab.2.2, hinv.1 b hab.2.1⟩)
  haveI : IsTrans interval (fun a b : interval => a.last < b.first ∧ b.first ≤ b.last) :=
    ⟨fun a b c hab hbc => ⟨by have := hab.1; have := hab.2; have := hbc.1; omega, hbc.2⟩⟩
  have hp := List.chain'_iff_pairwise.mp hc
  rw [List.pairwise_iff_getElem] at hp
  rw [tableAt_eq t i (by omega), tableAt_eq t j hj]
  exact (hp i j (by omega) hj hij).1

theorem tableInv_le (t : List interval) (hinv : tableInv t) (i : Nat) (hi : i < t.length) :
    (tableAt t (i : Int)).first ≤ (tableAt t (i : Int)).last := by
  rw [tableAt_eq t i hi]
  exact hinv.1 _ (List.getElem_mem _)

/-- In a table with the invariant the bounds of the intervals grow with the
index. -/
theorem tableInv_int (t : List interval) (hinv : tableInv t) (i j : Int)
    (hi : 0 ≤ i) (hij : i ≤ j) (hj : j < t.length) :
    (tableAt t i).first ≤ (tableAt t j).first ∧ (tableAt t i).last ≤ (tableAt t j).last := by
  obtain ⟨a, rfl⟩ := Int.eq_ofNat_of_zero_le hi
  obtain ⟨b, rfl⟩ := Int.eq_ofNat_of_zero_le (le_trans hi hij)
  have ha := tableInv_le t hinv a (by omega)
  have hb := tableInv_le t hinv b (by omega)
  rcases Nat.eq_or_lt_of_le (Int.ofNat_le.mp hij) with h | h
  · subst h
    exact ⟨le_refl _, le_refl _⟩
  · have := tableInv_lt t hinv a b h (by omega)
    omega

theorem bisearchLoop_succ (fuel : Nat) (cp : Int) (t : List interval) (min max : Int) :
    bisearchLoop (fuel + 1) cp t min max =
      if max ≥ min then
        if cp > (tableAt t ((min + max).tdiv 2)).last then
          bisearchLoop fuel cp t ((min + max).tdiv 2 + 1) max
        else if cp < (tableAt t ((min + max).tdiv 2)).first then
          bisearchLoop fuel cp t min ((min + max).tdiv 2 - 1)
        else some 1
      else some 0 := rfl

/-- The loop of `bisearch` finishes within `max + 1 - min` rounds and one more,
and decides whether `cp` lies in one of the intervals `min .. max`. -/
theorem bisearchLoop_spec (t : List interval) (hinv : tableInv t) (cp : Int) :
    ∀ (fuel : Nat) (min max : Int), 0 ≤ min → max < t.length →
      (max + 1 - min).toNat < fuel →
      (bisearchLoop fuel cp t min max = some 1 ∧ ∃ i, min ≤ i ∧ i ≤ max ∧ hit t cp i) ∨
      (bisearchLoop fuel cp t min max = some 0 ∧ ∀ i, min ≤ i → i ≤ max → ¬ hit t cp i) := by
  intro fuel
  induction fuel with
  | zero => intro min max _ _ h; omega
  | succ fuel ih =>
    intro min max hmin hmax hfuel
    rw [bisearchLoop_succ]
    by_cases hle : max ≥ min
    · have hmid : (min + max).tdiv 2 = (min + max) / 2 :=
        Int.tdiv_eq_ediv (by omega) (by omega)
      rw [if_pos hle, hmid]
      have hm1 : min ≤ (min + max) / 2 := by omega
      have hm2 : (min + max) / 2 ≤ max := by omega
      generalize (min + max) / 2 = mid at hm1 hm2 ⊢
      by_cases hgt : cp > (tableAt t mid).last
      · rw [if_pos hgt]
        rcases ih (mid + 1) max (by omega) hmax (by omega) with ⟨hr, i, hi1, hi2, hi⟩ | ⟨hr, hno⟩
        · exact Or.inl ⟨hr, i, by omega, hi2, hi⟩
        · refine Or.inr ⟨hr, fun i hi1 hi2 hh => ?_⟩
          by_cases him : i ≤ mid
          · have := tableInv_int t hinv i mid (by omega) him (by omega)
            unfold hit at hh
            omega
          · exact hno i (by omega) hi2 hh
      · rw [if_neg hgt]
        by_cases hlt : cp < (tableAt t mid).first
        · rw [if_pos hlt]
          rcases ih min (mid - 1) hmin (by omega) (by omega) with
            ⟨hr, i, hi1, hi2, hi⟩ | ⟨hr, hno⟩
          · exact Or.inl ⟨hr, i, hi1, by omega, hi⟩
          · refine Or.inr ⟨hr, fun i hi1 hi2 hh => ?_⟩
            by_cases him : mid ≤ i
            · have := tableInv_int t hinv mid i (by omega) him (by omega)
              unfold hit at hh
              omega
            · exact hno i hi1 (by omega) hh
        · rw [if_neg hlt]
          exact Or.inl ⟨rfl, mid, hm1, hm2, by unfold hit; omega⟩
    · rw [if_neg hle]
      exact Or.inr ⟨rfl, fun i hi1 hi2 _ => by omega⟩

/-- Linear membership in terms of the entries of the table. -/
theorem inTable_iff (t : List interval) (cp : Int) :
    inTable t cp = true ↔ ∃ i : Int, 0 ≤ i ∧ i ≤ (t.length : Int) - 1 ∧ hit t cp i := by
  unfold inTable hit
  rw [List.any_eq_true]
  constructor
  · rintro ⟨iv, hmem, hiv⟩
    obtain ⟨k, hk, rfl⟩ := List.mem_iff_getElem.mp hmem
    refine ⟨(k : Int), by omega, by omega, ?_⟩
    rw [tableAt_eq t k hk]
    simpa using hiv
  · rintro ⟨i, hi0, hi1, hi⟩
    obtain ⟨k, rfl⟩ := Int.eq_ofNat_of_zero_le hi0
    have hk : k < t.length := by omega
    rw [tableAt_eq t k hk] at hi
    exact ⟨t[k], List.getElem_mem _, by simpa using hi⟩

/-- On a non-empty table with the invariant, `bisearch` finishes and returns 1
exactly when `cp` lies in one of the intervals. -/
theorem bisearch_spec (t : List interval) (hinv : tableInv t) (hne : t ≠ []) (cp : Int) :
    bisearch cp t ((t.length : Int) - 1) = some (if inTable t cp then 1 else 0) := by
  have hlen : 0 < t.length := List.length_pos.mpr hne
  unfold bisearch
  by_cases hout : cp < (tableAt t 0).first ∨ cp > (tableAt t ((t.length : Int) - 1)).last
  · rw [if_pos hout]
    have hno : ¬ inTable t cp = true := by
      rw [inTable_iff]
      rintro ⟨i, hi0, hi1, hi⟩
      have h0 := tableInv_int t hinv 0 i (le_refl 0) hi0 (by omega)
      have h1 := tableInv_int t hinv i ((t.length : Int) - 1) hi0 hi1 (by omega)
      unfold hit at hi
      omega
    rw [if_neg hno]
  · rw [if_neg hout]
    rcases bisearchLoop_spec t hinv cp (((t.length : Int) - 1).toNat + 2) 0
        ((t.length : Int) - 1) (le_refl 0) (by omega) (by omega) with ⟨hr, hex⟩ | ⟨hr, hno⟩
    · rw [hr, if_pos ((inTable_iff t cp).mpr hex)]
    · have : ¬ inTable t cp = true := by
        rw [inTable_iff]
        rintro ⟨i, hi0, hi1, hi⟩
        exact hno i hi0 hi1 hi
      rw [hr, if_neg this]

theorem checkTable_sound (t : List interval) (h : checkTable t = true) : tableInv t := by
  induction t with
  | nil => exact ⟨by simp, List.chain'_nil⟩
  | cons a rest ih =>
    cases rest with
    | nil =>
      simp only [checkTable, decide_eq_true_eq] at h
      exact ⟨by simpa using h, List.chain'_singleton a⟩
    | cons b rest =>
      simp only [checkTable, Bool.and_eq_true, decide_eq_true_eq] at h
      obtain ⟨hall, hchain⟩ := ih h.2
      refine ⟨?_, List.chain'_cons.mpr ⟨h.1.2, hchain⟩⟩
      intro iv hiv
      rcases List.mem_cons.mp hiv with rfl | hmem
      · exact h.1.1
      · exact hall iv hmem

theorem combining_inv : tableInv combining :=
  checkTable_sound combining (by decide)

theorem combining_ne_nil : combining ≠ [] :=
  List.cons_ne_nil _ _

/-- The width of a codepoint is its reference classification. -/
theorem neo4j_u8cpwidth_eq (cp : Int) : neo4j_u8cpwidth cp = some (refWidth cp) := by
  unfold neo4j_u8cpwidth refWidth
  rw [bisearch_spec combining combining_inv combining_ne_nil cp]
  by_cases hc : cp < 32 ∨ (cp ≥ 0x7F ∧ cp < 0xA0)
  · have hc2 : cp < 32 ∨ (0x7F ≤ cp ∧ cp < 0xA0) := hc
    rw [if_pos hc, if_pos hc2]
  · have hc2 : ¬ (cp < 32 ∨ (0x7F ≤ cp ∧ cp < 0xA0)) := hc
    rw [if_neg hc, if_neg hc2]
    by_cases ht : inTable combining cp = true
    · simp [ht]
    · simp only [ht, if_false]
      by_cases hw : isWide cp
      · have : cp ≥ 0x1100 ∧
              (cp ≤ 0x115F ∨
               cp = 0x2329 ∨ cp = 0x232A ∨
               (cp ≥ 0x2E80 ∧ cp ≤ 0xA4CF ∧ cp ≠ 0x303F) ∨
               (cp ≥ 0xAC00 ∧ cp ≤ 0xD7A3) ∨
               (cp ≥ 0xF900 ∧ cp ≤ 0xFAFF) ∨
               (cp ≥ 0xFE10 ∧ cp ≤ 0xFE19) ∨
               (cp ≥ 0xFE30 ∧ cp ≤ 0xFE6F) ∨
               (cp ≥ 0xFF00 ∧ cp ≤ 0xFF60) ∨
               (cp ≥ 0xFFE0 ∧ cp ≤ 0xFFE6) ∨
               (cp ≥ 0x20000 ∧ cp ≤ 0x2FFFD) ∨
               (cp ≥ 0x30000 ∧ cp ≤ 0x3FFFD)) := by
          unfold isWide at hw; omega
        simp [hw, this]
      · have : ¬ (cp ≥ 0x1100 ∧
              (cp ≤ 0x115F ∨
               cp = 0x2329 ∨ cp = 0x232A ∨
               (cp ≥ 0x2E80 ∧ cp ≤ 0xA4CF ∧ cp ≠ 0x303F) ∨
               (cp ≥ 0xAC00 ∧ cp ≤ 0xD7A3) ∨
               (cp ≥ 0xF900 ∧ cp ≤ 0xFAFF) ∨
               (cp ≥ 0xFE10 ∧ cp ≤ 0xFE19) ∨
               (cp ≥ 0xFE30 ∧ cp ≤ 0xFE6F) ∨
               (cp ≥ 0xFF00 ∧ cp ≤ 0xFF60) ∨
               (cp ≥ 0xFFE0 ∧ cp ≤ 0xFFE6) ∨
               (cp ≥ 0x20000 ∧ cp ≤ 0x2FFFD) ∨
               (cp ≥ 0x30000 ∧ cp ≤ 0x3FFFD))) := by
          unfold isWide at hw; omega
        simp [hw, this]

/-! ## Claims about the validator and the decoder -/

/-- C1: the round trip fails on the code. The standard encoding of U+4E2D is
`E4 B8 AD`, and `neo4j_u8codepoint` decodes it to `0x4E38`: the three-byte branch
uses the second byte twice and never reads the third. The four-byte branch shifts
the lead byte by 12 and also uses the second byte twice: the encoding
`F0 90 80 80` of U+10000 decodes to `0x410`. -/
theorem neo4j_u8codepoint_roundtrip_fails :
    utf8Encode 0x4E2D = [0xE4, 0xB8, 0xAD] ∧
    neo4j_u8codepoint [0xE4, 0xB8, 0xAD] 3 = (0x4E38, 3) ∧
    utf8Encode 0x10000 = [0xF0, 0x90, 0x80, 0x80] ∧
    neo4j_u8codepoint [0xF0, 0x90, 0x80, 0x80] 4 = (0x410, 4) := by
  decide

/-- C2: the validator accepts a sequence that is not well formed. On the buffer
`C2 FF` with two bytes available `neo4j_u8clen` returns 2, although `FF` is not a
continuation byte and no scalar value has the encoding `C2 FF`: the test
`(b[1] & 0x80) != 0x80` looks at the top bit only. -/
theorem neo4j_u8clen_accepts_non_continuation :
    neo4j_u8clen [0xC2, 0xFF] 2 = 2 ∧ ¬ isCont 0xFF ∧ ¬ wellFormed [0xC2, 0xFF] := by
  refine ⟨by decide, by decide, ?_⟩
  rintro ⟨cp, hs, he⟩
  rw [utf8Encode_eq cp hs.1] at he
  split_ifs at he <;> simp at he
  all_goals omega

/-- C3: for every scalar value `cp ≥ 1`, with `L` the length of its standard
encoding and `n ≥ L` bytes available, on the encoding of `cp` followed by any
bytes `neo4j_u8clen` returns `L` and `neo4j_u8codepoint` succeeds and reports `L`
bytes consumed; on a buffer that starts with the byte `0` and has at least one
byte available, `neo4j_u8clen` returns 0 and `neo4j_u8codepoint` returns
codepoint 0 with 0 bytes consumed. -/
theorem neo4j_u8clen_complete (cp : Nat) (rest : List Nat) (n : Nat)
    (h1 : 1 ≤ cp) (hs : isScalar cp) (hn : utf8Len cp ≤ n) :
    neo4j_u8clen (utf8Encode cp ++ rest) n = utf8Len cp ∧
    0 ≤ (neo4j_u8codepoint (utf8Encode cp ++ rest) n).1 ∧
    (neo4j_u8codepoint (utf8Encode cp ++ rest) n).2 = utf8Len cp ∧
    (∀ m, 1 ≤ m → neo4j_u8clen (0 :: rest) m = 0 ∧
      neo4j_u8codepoint (0 :: rest) m = (0, 0)) := by
  have hlen4 : 1 ≤ utf8Len cp ∧ utf8Len cp ≤ 4 := by
    unfold utf8Len; split_ifs <;> omega
  have hlen : neo4j_u8clen (utf8Encode cp ++ rest) n = utf8Len cp := by
    obtain ⟨hmax, hsur⟩ := hs
    have hr := neo4j_u8clen_eq (utf8Encode cp ++ rest) n
    generalize neo4j_u8clen (utf8Encode cp ++ rest) n = r at hr ⊢
    rw [utf8Encode_eq cp hmax] at hr
    unfold utf8Len at hn ⊢
    by_cases c1 : cp < 0x80
    · simp only [if_pos c1] at hn hr ⊢
      simp only [List.cons_append, List.nil_append, byteAt_cons_zero, eq_ite_iff] at hr
      omega
    by_cases c2 : cp < 0x800
    · simp only [if_neg c1, if_pos c2] at hn hr ⊢
      simp only [List.cons_append, List.nil_append, byteAt_cons_zero, byteAt_cons_succ,
        eq_ite_iff] at hr
      omega
    by_cases c3 : cp < 0x10000
    · simp only [if_neg c1, if_neg c2, if_pos c3] at hn hr ⊢
      simp only [List.cons_append, List.nil_append, byteAt_cons_zero, byteAt_cons_succ,
        eq_ite_iff] at hr
      omega
    · simp only [if_neg c1, if_neg c2, if_neg c3] at hn hr ⊢
      simp only [List.cons_append, List.nil_append, byteAt_cons_zero, byteAt_cons_succ,
        eq_ite_iff] at hr
      omega
  have hzero : ∀ m, 1 ≤ m → neo4j_u8clen (0 :: rest) m = 0 := by
    intro m hm
    have hm0 : m ≠ 0 := by omega
    rw [neo4j_u8clen_eq]
    simp [byteAt_cons_zero, hm0]
  have hcase : utf8Len cp = 1 ∨ utf8Len cp = 2 ∨ utf8Len cp = 3 ∨ utf8Len cp = 4 := by omega
  have hcp := neo4j_u8codepoint_eq (utf8Encode cp ++ rest) n
  rw [hlen] at hcp
  refine ⟨hlen, ?_, ?_, ?_⟩
  · rw [hcp]
    rcases hcase with h | h | h | h <;> simp [h] <;> omega
  · rw [hcp]
    rcases hcase with h | h | h | h <;> simp [h]
  · intro m hm
    refine ⟨hzero m hm, ?_⟩
    rw [neo4j_u8codepoint_eq, hzero m hm]
    simp

/-- Witness for C3: U+4E2D, encoded `E4 B8 AD`, with exactly three bytes. -/
theorem neo4j_u8clen_complete_witness :
    neo4j_u8clen (utf8Encode 0x4E2D ++ []) 3 = utf8Len 0x4E2D ∧
    0 ≤ (neo4j_u8codepoint (utf8Encode 0x4E2D ++ []) 3).1 ∧
    (neo4j_u8codepoint (utf8Encode 0x4E2D ++ []) 3).2 = utf8Len 0x4E2D ∧
    (∀ m, 1 ≤ m → neo4j_u8clen (0 :: []) m = 0 ∧
      neo4j_u8codepoint (0 :: []) m = (0, 0)) :=
  neo4j_u8clen_complete 0x4E2D [] 3 (by decide) (by decide) (by decide)

/-- C4: `neo4j_u8clen` returns `-1`, whatever the available length, on every
buffer that starts with the bit pattern of a two-, three- or four-byte form whose
value is overlong, a surrogate or above `0x10FFFF`, and on every buffer whose
lead byte is a continuation byte or is `0xF8` or more. -/
theorem neo4j_u8clen_rejects_ill_formed (s : List Nat) (n : Nat) (h : illFormed s) :
    neo4j_u8clen s n = -1 := by
  have hr := neo4j_u8clen_eq s n
  have hb0 := byteAt_lt s 0
  have hb1 := byteAt_lt s 1
  have hb2 := byteAt_lt s 2
  have hb3 := byteAt_lt s 3
  unfold illFormed isCont at h
  simp only [payload2_eq, payload3_eq, payload4_eq] at h
  generalize neo4j_u8clen s n = r at hr ⊢
  simp only [eq_ite_iff] at hr
  omega

/-- Witness for C4: the overlong `C0 80`, the surrogate `ED A0 80` and the too
large `F4 90 80 80` are ill formed, and the first is rejected. -/
theorem neo4j_u8clen_rejects_ill_formed_witness :
    illFormed [0xC0, 0x80] ∧ illFormed [0xED, 0xA0, 0x80] ∧
    illFormed [0xF4, 0x90, 0x80, 0x80] ∧ neo4j_u8clen [0xC0, 0x80] 2 = -1 :=
  ⟨by decide, by decide, by decide,
    neo4j_u8clen_rejects_ill_formed [0xC0, 0x80] 2 (by decide)⟩

/-- C7: a result of `neo4j_u8clen` other than `-1` lies between 0 and 4 and does
not exceed the available length; when the lead byte announces an encoding of `L`
bytes and fewer than `L` are available the result is `-1`, as for the lead byte
`E0` with one byte available. -/
theorem neo4j_u8clen_length_bound (s : List Nat) (n : Nat) :
    (neo4j_u8clen s n = -1 ∨
      (0 ≤ neo4j_u8clen s n ∧ neo4j_u8clen s n ≤ (n : Int) ∧ neo4j_u8clen s n ≤ 4)) ∧
    (∀ L, impliedLen (byteAt s 0) = some L → n < L → neo4j_u8clen s n = -1) ∧
    neo4j_u8clen [0xE0] 1 = -1 := by
  refine ⟨?_, ?_, by decide⟩
  · have := neo4j_u8clen_range s n
    omega
  · intro L hL hn
    have hr := neo4j_u8clen_eq s n
    unfold impliedLen at hL
    generalize neo4j_u8clen s n = r at hr ⊢
    simp only [eq_ite_iff] at hr
    split_ifs at hL <;> simp at hL <;> omega

/-- C10: whenever `neo4j_u8codepoint` returns a value other than `-1`, the value
lies in `[0, 0x10FFFF]` and is not a surrogate. -/
theorem neo4j_u8codepoint_range (s : List Nat) (n : Nat)
    (h : (neo4j_u8codepoint s n).1 ≠ -1) :
    0 ≤ (neo4j_u8codepoint s n).1 ∧ (neo4j_u8codepoint s n).1 ≤ 0x10FFFF ∧
    ¬ (0xD800 ≤ (neo4j_u8codepoint s n).1 ∧ (neo4j_u8codepoint s n).1 ≤ 0xDFFF) := by
  have hb0 := byteAt_lt s 0
  have hb1 := byteAt_lt s 1
  rw [neo4j_u8codepoint_eq] at h ⊢
  split_ifs at h ⊢ with c c0 c1 c2 c3
  · simp at h
  · simp
  · have := neo4j_u8clen_eq_one s n c1
    simp only []
    omega
  · have := neo4j_u8clen_eq_two s n c2
    simp only []
    omega
  · have h3 := neo4j_u8clen_eq_three s n c3
    have hx : byteAt s 0 % 16 = byteAt s 0 - 0xE0 := by omega
    have hy : byteAt s 1 % 64 < 64 := by omega
    have hy2 : byteAt s 0 = 0xED → byteAt s 1 % 64 < 32 := by omega
    rw [hx]
    generalize byteAt s 1 % 64 = y at hy hy2 ⊢
    simp only []
    omega
  · have hr := neo4j_u8clen_range s n
    have h4 := neo4j_u8clen_eq_four s n (by omega)
    have hx : byteAt s 0 % 8 = byteAt s 0 - 0xF0 := by omega
    have hy : byteAt s 1 % 64 < 64 := by omega
    rw [hx]
    generalize byteAt s 1 % 64 = y at hy ⊢
    simp only []
    omega

/-- Witness for C10: the buffer `E4 B8 AD` with three bytes available. -/
theorem neo4j_u8codepoint_range_witness :
    0 ≤ (neo4j_u8codepoint [0xE4, 0xB8, 0xAD] 3).1 ∧
    (neo4j_u8codepoint [0xE4, 0xB8, 0xAD] 3).1 ≤ 0x10FFFF ∧
    ¬ (0xD800 ≤ (neo4j_u8codepoint [0xE4, 0xB8, 0xAD] 3).1 ∧
      (neo4j_u8codepoint [0xE4, 0xB8, 0xAD] 3).1 ≤ 0xDFFF) :=
  neo4j_u8codepoint_range [0xE4, 0xB8, 0xAD] 3 (by decide)

/-! ## Claims about the column width -/

/-- C6: for every integer `cp`, `neo4j_u8cpwidth` returns the reference
classification: `-1` for a control character, else 0 when `cp` lies in an
interval of the zero-width table (by linear membership), else 2 in the wide
ranges, else 1. The result is one of `-1, 0, 1, 2`; the widths of `0x41`,
`0x0301`, `0x4E2D` and `0x07` are `1`, `0`, `2` and `-1`. -/
theorem neo4j_u8cpwidth_reference (cp : Int) :
    neo4j_u8cpwidth cp = some (refWidth cp) ∧
    (refWidth cp = -1 ∨ refWidth cp = 0 ∨ refWidth cp = 1 ∨ refWidth cp = 2) ∧
    neo4j_u8cpwidth 0x41 = some 1 ∧ neo4j_u8cpwidth 0x0301 = some 0 ∧
    neo4j_u8cpwidth 0x4E2D = some 2 ∧ neo4j_u8cpwidth 0x07 = some (-1) := by
  refine ⟨neo4j_u8cpwidth_eq cp, ?_, by decide, by decide, by decide, by decide⟩
  unfold refWidth
  split_ifs <;> simp

theorem cswidthLoop_succ (fuel : Nat) (s : List Nat) (n : Nat) (width : Int) :
    cswidthLoop (fuel + 1) s n width =
      if (neo4j_u8codepoint s n).1 < 0 then some (-1)
      else
        match neo4j_u8cpwidth (neo4j_u8codepoint s n).1 with
        | none => none
        | some w =>
          if w < 0 then some (-1)
          else if n - (neo4j_u8codepoint s n).2 > 0 ∧
              byteAt (s.drop (neo4j_u8codepoint s n).2) 0 ≠ 0 then
            cswidthLoop fuel (s.drop (neo4j_u8codepoint s n).2)
              (n - (neo4j_u8codepoint s n).2) (width + w)
          else some (width + w) := rfl

/-- One round of the loop of `neo4j_u8cswidth`, from the decoded character and
its reference width. -/
theorem cswidthLoop_step (fuel : Nat) (s : List Nat) (n : Nat) (width : Int)
    (cp : Int) (b : Nat) (hd : neo4j_u8codepoint s n = (cp, b)) (hcp : 0 ≤ cp)
    (hw : 0 ≤ refWidth cp) :
    cswidthLoop (fuel + 1) s n width =
      if n - b > 0 ∧ byteAt (s.drop b) 0 ≠ 0 then
        cswidthLoop fuel (s.drop b) (n - b) (width + refWidth cp)
      else some (width + refWidth cp) := by
  rw [cswidthLoop_succ, hd]
  simp only [neo4j_u8cpwidth_eq]
  rw [if_neg (by omega), if_neg (by omega)]

/-- C5: the width of a string is not the sum of the widths of its characters.
The zero-width space U+200B has width 0 and the encoding `E2 80 8B`; on these
three bytes `neo4j_u8cswidth` returns 1, because the decoder turns them into
`0x2000`. -/
theorem neo4j_u8cswidth_not_sum :
    utf8Encode 0x200B = [0xE2, 0x80, 0x8B] ∧
    neo4j_u8cpwidth 0x200B = some 0 ∧
    neo4j_u8codepoint [0xE2, 0x80, 0x8B] 3 = (0x2000, 3) ∧
    neo4j_u8cswidth [0xE2, 0x80, 0x8B] 3 = some 1 := by
  decide

/-- C8: on a buffer that starts with the terminator `neo4j_u8cswidth` does not
return 0. The loop body runs once before the terminator test: the decoder
returns codepoint 0 with 0 bytes consumed, codepoint 0 has width `-1`, and the
result is `-1`, whatever follows and whatever length is available. -/
theorem neo4j_u8cswidth_terminator_first (rest : List Nat) (n : Nat) :
    neo4j_u8cswidth (0 :: rest) (n + 1) = some (-1) ∧
    neo4j_u8cswidth [0] 1 = some (-1) := by
  refine ⟨?_, by decide⟩
  have hlen : neo4j_u8clen (0 :: rest) (n + 1) = 0 := by
    rw [neo4j_u8clen_eq]
    simp [byteAt_cons_zero]
  have hd : neo4j_u8codepoint (0 :: rest) (n + 1) = (0, 0) := by
    rw [neo4j_u8codepoint_eq, hlen]
    simp
  unfold neo4j_u8cswidth
  have w0 : refWidth 0 = -1 := by decide
  rw [cswidthLoop_succ, hd]
  simp [neo4j_u8cpwidth_eq, w0]

/-- C9: on the bytes `41 E4 B8 AD` with four bytes available
`neo4j_u8cswidth` returns 3, whatever follows them; it returns 3 as well when
they are followed by a terminator and five or more bytes are available. -/
theorem neo4j_u8cswidth_A_zhong (rest : List Nat) (n : Nat) (h : 5 ≤ n) :
    neo4j_u8cswidth ([0x41, 0xE4, 0xB8, 0xAD] ++ rest) 4 = some 3 ∧
    neo4j_u8cswidth ([0x41, 0xE4, 0xB8, 0xAD, 0x00] ++ rest) n = some 3 := by
  have e1 : ∀ (t : List Nat) (m : Nat), 1 ≤ m →
      neo4j_u8codepoint (0x41 :: t) m = (0x41, 1) := by
    intro t m hm
    have hl : neo4j_u8clen (0x41 :: t) m = 1 := by
      have hr := neo4j_u8clen_eq (0x41 :: t) m
      generalize neo4j_u8clen (0x41 :: t) m = r at hr ⊢
      simp only [byteAt_cons_zero, eq_ite_iff] at hr
      omega
    rw [neo4j_u8codepoint_eq, hl]
    simp [byteAt_cons_zero]
  have e2 : ∀ (t : List Nat) (m : Nat), 3 ≤ m →
      neo4j_u8codepoint (0xE4 :: 0xB8 :: 0xAD :: t) m = (0x4E38, 3) := by
    intro t m hm
    have hl : neo4j_u8clen (0xE4 :: 0xB8 :: 0xAD :: t) m = 3 := by
      have hr := neo4j_u8clen_eq (0xE4 :: 0xB8 :: 0xAD :: t) m
      generalize neo4j_u8clen (0xE4 :: 0xB8 :: 0xAD :: t) m = r at hr ⊢
      simp only [byteAt_cons_zero, byteAt_cons_succ, eq_ite_iff] at hr
      omega
    rw [neo4j_u8codepoint_eq, hl]
    simp [byteAt_cons_zero, byteAt_cons_succ]
  have w1 : refWidth 0x41 = 1 := by decide
  have w2 : refWidth 0x4E38 = 2 := by decide
  constructor
  · unfold neo4j_u8cswidth
    simp only [List.cons_append, List.nil_append]
    rw [cswidthLoop_step _ _ _ _ _ _ (e1 _ 4 (by omega)) (by omega) (by omega)]
    simp only [List.cons_append, List.nil_append, List.drop_succ_cons, List.drop_zero,
      byteAt_cons_zero, w1]
    rw [if_pos (by decide),
      cswidthLoop_step _ _ _ _ _ _ (e2 _ 3 (by omega)) (by omega) (by omega)]
    simp [w2]
  · obtain ⟨k, rfl⟩ : ∃ k, n = k + 5 := ⟨n - 5, by omega⟩
    unfold neo4j_u8cswidth
    simp only [List.cons_append, List.nil_append]
    rw [cswidthLoop_step _ _ _ _ _ _ (e1 _ (k + 5) (by omega)) (by omega) (by omega)]
    simp only [List.cons_append, List.nil_append, List.drop_succ_cons, List.drop_zero,
      byteAt_cons_zero, w1]
    rw [if_pos ⟨by omega, by decide⟩,
      cswidthLoop_step _ _ _ _ _ _ (e2 _ (k + 5 - 1) (by omega)) (by omega) (by omega)]
    simp [byteAt_cons_zero, w2]

/-- Witness for C9: nothing after the bytes, and five bytes available. -/
theorem neo4j_u8cswidth_A_zhong_witness :
    neo4j_u8cswidth ([0x41, 0xE4, 0xB8, 0xAD] ++ []) 4 = some 3 ∧
    neo4j_u8cswidth ([0x41, 0xE4, 0xB8, 0xAD, 0x00] ++ []) 5 = some 3 :=
  neo4j_u8cswidth_A_zhong [] 5 (by decide)

/-! ### What the validator and the decoder read -/

/-- A length of 1 to 4 that the validator reports depends only on that many
bytes, and stays the same with any available length that covers them. -/
theorem neo4j_u8clen_congr (s t : List Nat) (n m : Nat) (k : Int)
    (h : neo4j_u8clen s n = k) (hk : 1 ≤ k)
    (hagree : ∀ i : Nat, (i : Int) < k → byteAt t i = byteAt s i) (hm : k ≤ (m : Int)) :
    neo4j_u8clen t m = k := by
  have hr := neo4j_u8clen_range s n
  have hk4 : k = 1 ∨ k = 2 ∨ k = 3 ∨ k = 4 := by omega
  have ht := neo4j_u8clen_eq t m
  generalize neo4j_u8clen t m = r at ht ⊢
  simp only [eq_ite_iff] at ht
  rcases hk4 with rfl | rfl | rfl | rfl
  · have h1 := neo4j_u8clen_eq_one s n h
    have a0 := hagree 0 (by omega)
    omega
  · have h2 := neo4j_u8clen_eq_two s n h
    have a0 := hagree 0 (by omega)
    have a1 := hagree 1 (by omega)
    omega
  · have h3 := neo4j_u8clen_eq_three s n h
    have a0 := hagree 0 (by omega)
    have a1 := hagree 1 (by omega)
    have a2 := hagree 2 (by omega)
    omega
  · have h4 := neo4j_u8clen_eq_four s n h
    have a0 := hagree 0 (by omega)
    have a1 := hagree 1 (by omega)
    have a2 := hagree 2 (by omega)
    have a3 := hagree 3 (by omega)
    omega

/-- The decoder succeeds exactly when the validator does, and then reports the
validated length. -/
theorem neo4j_u8codepoint_fst_snd (s : List Nat) (n : Nat) :
    (neo4j_u8clen s n = -1 ∧ neo4j_u8codepoint s n = (-1, n)) ∨
    (0 ≤ neo4j_u8clen s n ∧ 0 ≤ (neo4j_u8codepoint s n).1 ∧
      ((neo4j_u8codepoint s n).2 : Int) = neo4j_u8clen s n) := by
  rw [neo4j_u8codepoint_eq]
  rcases neo4j_u8clen_range s n with h | ⟨h0, h4, -⟩
  · left
    simp [h]
  · right
    refine ⟨h0, ?_⟩
    have hc : neo4j_u8clen s n = 0 ∨ neo4j_u8clen s n = 1 ∨ neo4j_u8clen s n = 2 ∨
        neo4j_u8clen s n = 3 ∨ neo4j_u8clen s n = 4 := by omega
    rcases hc with h | h | h | h | h <;> simp [h] <;> omega

/-- The decoded value is a function of the validated length and the first two
bytes. -/
theorem neo4j_u8codepoint_congr (s t : List Nat) (n m : Nat)
    (hlen : neo4j_u8clen t m = neo4j_u8clen s n) (hpos : 0 ≤ neo4j_u8clen s n)
    (h0 : byteAt t 0 = byteAt s 0)
    (h1 : 2 ≤ neo4j_u8clen s n → byteAt t 1 = byteAt s 1) :
    neo4j_u8codepoint t m = neo4j_u8codepoint s n := by
  rw [neo4j_u8codepoint_eq, neo4j_u8codepoint_eq, hlen, h0]
  have hr := neo4j_u8clen_range s n
  have hc : neo4j_u8clen s n = 0 ∨ neo4j_u8clen s n = 1 ∨ neo4j_u8clen s n = 2 ∨
      neo4j_u8clen s n = 3 ∨ neo4j_u8clen s n = 4 := by omega
  rcases hc with h | h | h | h | h
  · simp [h]
  · simp [h]
  · simp [h, h1 (by omega)]
  · simp [h, h1 (by omega)]
  · simp [h, h1 (by omega)]

/-- C11: when `neo4j_u8codepoint` on `(s, n)` returns a codepoint `cp ≥ 0` with
`k ≥ 1` bytes consumed, it returns the same codepoint with the same `k` on
every buffer that agrees with `s` on its first `k` bytes and every available
length of at least `k`; `neo4j_u8clen` returns `k` on both. -/
theorem neo4j_u8codepoint_depends_on_consumed (s t : List Nat) (n m : Nat) (cp : Int)
    (k : Nat) (h : neo4j_u8codepoint s n = (cp, k)) (hcp : 0 ≤ cp) (hk : 1 ≤ k)
    (hagree : ∀ i, i < k → byteAt t i = byteAt s i) (hm : k ≤ m) :
    neo4j_u8codepoint t m = (cp, k) ∧ neo4j_u8clen s n = k ∧ neo4j_u8clen t m = k := by
  have hs : neo4j_u8clen s n = k := by
    rcases neo4j_u8codepoint_fst_snd s n with ⟨-, he⟩ | ⟨-, -, he⟩
    · rw [he] at h
      have := congrArg Prod.fst h
      simp only [] at this
      omega
    · rw [h] at he
      exact he.symm
  have ht : neo4j_u8clen t m = k :=
    neo4j_u8clen_congr s t n m k hs (by omega) (fun i hi => hagree i (by omega)) (by omega)
  refine ⟨?_, hs, ht⟩
  rw [← h]
  exact neo4j_u8codepoint_congr s t n m (by rw [hs, ht]) (by omega)
    (hagree 0 (by omega)) (fun h2 => hagree 1 (by omega))

/-- Witness for C11: `E4 B8 AD` with three bytes available, against the same
bytes followed by `41` with four available. -/
theorem neo4j_u8codepoint_depends_on_consumed_witness :
    neo4j_u8codepoint [0xE4, 0xB8, 0xAD, 0x41] 4 = (0x4E38, 3) ∧
    neo4j_u8clen [0xE4, 0xB8, 0xAD] 3 = (3 : Nat) ∧
    neo4j_u8clen [0xE4, 0xB8, 0xAD, 0x41] 4 = (3 : Nat) :=
  neo4j_u8codepoint_depends_on_consumed [0xE4, 0xB8, 0xAD] [0xE4, 0xB8, 0xAD, 0x41] 3 4
    0x4E38 3 (by decide) (by decide) (by decide) (by decide) (by decide)

/-- C12: with no byte available `neo4j_u8clen` and `neo4j_u8codepoint` return
`-1`, and `neo4j_u8cswidth` returns `-1` from its first round. -/
theorem zero_length_is_invalid (s : List Nat) :
    neo4j_u8clen s 0 = -1 ∧ neo4j_u8codepoint s 0 = (-1, 0) ∧
    neo4j_u8cswidth s 0 = some (-1) := by
  have hl : neo4j_u8clen s 0 = -1 := by
    rw [neo4j_u8clen_eq]
    simp
  have hd : neo4j_u8codepoint s 0 = (-1, 0) := by
    rw [neo4j_u8codepoint_eq, hl]
    simp
  refine ⟨hl, hd, ?_⟩
  unfold neo4j_u8cswidth
  rw [cswidthLoop_succ, hd]
  simp

/-- C15: the table `combining` has the table invariant (every entry has
`first ≤ last` and lies strictly below the next entry), and every entry lies
within `[0x0300, 0xE01EF]`, hence holds no control codepoint. -/
theorem combining_sorted_non_overlapping :
    tableInv combining ∧
    (∀ iv ∈ combining, 0x0300 ≤ iv.first ∧ iv.last ≤ 0xE01EF) ∧
    (∀ iv ∈ combining, ∀ cp : Int, iv.first ≤ cp → cp ≤ iv.last →
      ¬ (cp < 32 ∨ (0x7F ≤ cp ∧ cp < 0xA0))) := by
  have hb : ∀ iv ∈ combining, 0x0300 ≤ iv.first ∧ iv.last ≤ 0xE01EF := by decide
  refine ⟨checkTable_sound combining (by decide), hb, ?_⟩
  intro iv hiv cp h1 h2
  have := hb iv hiv
  omega

/-- C16: two buffers that `neo4j_u8clen` accepts with the same length 3 or 4 and
that share their first two bytes decode to the same codepoint, whatever their
third and fourth bytes are. -/
theorem neo4j_u8codepoint_ignores_later_bytes (s t : List Nat) (n m : Nat)
    (hs : neo4j_u8clen s n = 3 ∨ neo4j_u8clen s n = 4)
    (ht : neo4j_u8clen t m = neo4j_u8clen s n)
    (h0 : byteAt t 0 = byteAt s 0) (h1 : byteAt t 1 = byteAt s 1) :
    (neo4j_u8codepoint t m).1 = (neo4j_u8codepoint s n).1 := by
  rw [neo4j_u8codepoint_congr s t n m ht (by omega) h0 (fun _ => h1)]

/-- Witness for C16: `E4 B8 AD` and `E4 B8 80` differ in their third byte. -/
theorem neo4j_u8codepoint_ignores_later_bytes_witness :
    (neo4j_u8codepoint [0xE4, 0xB8, 0x80] 3).1 = (neo4j_u8codepoint [0xE4, 0xB8, 0xAD] 3).1 :=
  neo4j_u8codepoint_ignores_later_bytes [0xE4, 0xB8, 0xAD] [0xE4, 0xB8, 0x80] 3 3
    (by decide) (by decide) (by decide) (by decide)

/-- C19: when `neo4j_u8codepoint` returns `-1` the length parameter keeps the
value it was given; otherwise it is overwritten with the validated length, the
number of bytes consumed. -/
theorem neo4j_u8codepoint_length_on_error (s : List Nat) (n : Nat) :
    ((neo4j_u8codepoint s n).1 = -1 → (neo4j_u8codepoint s n).2 = n) ∧
    ((neo4j_u8codepoint s n).1 ≠ -1 →
      ((neo4j_u8codepoint s n).2 : Int) = neo4j_u8clen s n) ∧
    ((neo4j_u8codepoint s n).1 = -1 ↔ neo4j_u8clen s n = -1) := by
  rcases neo4j_u8codepoint_fst_snd s n with ⟨hl, he⟩ | ⟨hl, hc, he⟩
  · rw [he]
    simp [hl]
  · refine ⟨fun h => ?_, fun _ => he, ?_⟩
    · omega
    · constructor <;> intro h <;> omega

/-- The validator accepts the standard encoding of a scalar value other than 0
with its standard length. -/
theorem neo4j_u8clen_utf8Encode (cp : Nat) (rest : List Nat) (n : Nat)
    (h1 : 1 ≤ cp) (hs : isScalar cp) (hn : utf8Len cp ≤ n) :
    neo4j_u8clen (utf8Encode cp ++ rest) n = utf8Len cp := by
  obtain ⟨hmax, hsur⟩ := hs
  have hr := neo4j_u8clen_eq (utf8Encode cp ++ rest) n
  generalize neo4j_u8clen (utf8Encode cp ++ rest) n = r at hr ⊢
  rw [utf8Encode_eq cp hmax] at hr
  unfold utf8Len at hn ⊢
  by_cases c1 : cp < 0x80
  · simp only [if_pos c1] at hn hr ⊢
    simp only [List.cons_append, List.nil_append, byteAt_cons_zero, eq_ite_iff] at hr
    omega
  by_cases c2 : cp < 0x800
  · simp only [if_neg c1, if_pos c2] at hn hr ⊢
    simp only [List.cons_append, List.nil_append, byteAt_cons_zero, byteAt_cons_succ,
      eq_ite_iff] at hr
    omega
  by_cases c3 : cp < 0x10000
  · simp only [if_neg c1, if_neg c2, if_pos c3] at hn hr ⊢
    simp only [List.cons_append, List.nil_append, byteAt_cons_zero, byteAt_cons_succ,
      eq_ite_iff] at hr
    omega
  · simp only [if_neg c1, if_neg c2, if_neg c3] at hn hr ⊢
    simp only [List.cons_append, List.nil_append, byteAt_cons_zero, byteAt_cons_succ,
      eq_ite_iff] at hr
    omega

/-- C17: for every scalar value `cp` in `[1, 0x7FF]` and every available length
of at least the length of its encoding, `neo4j_u8codepoint` on the standard
encoding of `cp`, followed by any bytes, returns exactly `cp` and the length of
the encoding: the byte itself below `0x80`, and
`((b0 & 0x1F) << 6) | (b1 & 0x3F)` from `0x80` on. -/
theorem neo4j_u8codepoint_short_exact (cp : Nat) (rest : List Nat) (n : Nat)
    (h1 : 1 ≤ cp) (h2 : cp ≤ 0x7FF) (hn : utf8Len cp ≤ n) :
    neo4j_u8codepoint (utf8Encode cp ++ rest) n = ((cp : Int), utf8Len cp) ∧
    (cp < 0x80 → utf8Encode cp = [cp]) ∧
    (0x80 ≤ cp → (utf8Encode cp).length = 2 ∧
      payload2 ((utf8Encode cp).getD 0 0) ((utf8Encode cp).getD 1 0) = cp) := by
  have hs : isScalar cp := ⟨by omega, by omega⟩
  have hl := neo4j_u8clen_utf8Encode cp rest n h1 hs hn
  have he := utf8Encode_eq cp hs.1
  refine ⟨?_, ?_, ?_⟩
  · rw [neo4j_u8codepoint_eq, hl]
    unfold utf8Len
    by_cases c1 : cp < 0x80
    · rw [he]
      simp only [if_pos c1, List.cons_append, List.nil_append, byteAt_cons_zero]
      have : cp % 256 = cp := by omega
      simp [this]
    · have c2 : cp < 0x800 := by omega
      rw [he]
      simp only [if_neg c1, if_pos c2, List.cons_append, List.nil_append, byteAt_cons_zero,
        byteAt_cons_succ]
      have : (0xC0 + cp / 64) % 256 % 32 * 64 + (0x80 + cp % 64) % 256 % 64 = cp := by omega
      simp [this]
  · intro c1
    rw [he, if_pos c1]
  · intro c1
    rw [he, if_neg (by omega), if_pos (by omega), payload2_eq]
    refine ⟨rfl, ?_⟩
    simp only [List.getD_cons_zero, List.getD_cons_succ]
    omega

/-- Witness for C17: U+00E9, encoded `C3 A9`, with two bytes available. -/
theorem neo4j_u8codepoint_short_exact_witness :
    neo4j_u8codepoint (utf8Encode 0xE9 ++ []) 2 = (((0xE9 : Nat) : Int), utf8Len 0xE9) ∧
    (0xE9 < 0x80 → utf8Encode 0xE9 = [0xE9]) ∧
    (0x80 ≤ 0xE9 → (utf8Encode 0xE9).length = 2 ∧
      payload2 ((utf8Encode 0xE9).getD 0 0) ((utf8Encode 0xE9).getD 1 0) = 0xE9) :=
  neo4j_u8codepoint_short_exact 0xE9 [] 2 (by decide) (by decide) (by decide)

/-! ### The probes of the binary search -/

theorem bisearchLoopProbes_succ (fuel : Nat) (cp : Int) (t : List interval) (min max : Int) :
    bisearchLoopProbes (fuel + 1) cp t min max =
      if max ≥ min then
        if cp > (tableAt t ((min + max).tdiv 2)).last then
          (min + max).tdiv 2 :: bisearchLoopProbes fuel cp t ((min + max).tdiv 2 + 1) max
        else if cp < (tableAt t ((min + max).tdiv 2)).first then
          (min + max).tdiv 2 :: bisearchLoopProbes fuel cp t min ((min + max).tdiv 2 - 1)
        else [(min + max).tdiv 2]
      else [] := rfl

/-- Every index that the loop of `bisearch` probes lies between `min` and `max`. -/
theorem bisearchLoopProbes_bounds (t : List interval) (cp : Int) :
    ∀ (fuel : Nat) (min max : Int), 0 ≤ min →
      ∀ p ∈ bisearchLoopProbes fuel cp t min max, min ≤ p ∧ p ≤ max := by
  intro fuel
  induction fuel with
  | zero => intro min max _ p hp; simp [bisearchLoopProbes] at hp
  | succ fuel ih =>
    intro min max hmin p hp
    rw [bisearchLoopProbes_succ] at hp
    by_cases hle : max ≥ min
    · have hmid : (min + max).tdiv 2 = (min + max) / 2 :=
        Int.tdiv_eq_ediv (by omega) (by omega)
      rw [if_pos hle, hmid] at hp
      have hm1 : min ≤ (min + max) / 2 := by omega
      have hm2 : (min + max) / 2 ≤ max := by omega
      generalize (min + max) / 2 = mid at hm1 hm2 hp
      by_cases hgt : cp > (tableAt t mid).last
      · rw [if_pos hgt] at hp
        rcases List.mem_cons.mp hp with rfl | hp
        · exact ⟨hm1, hm2⟩
        · have := ih (mid + 1) max (by omega) p hp
          omega
      · rw [if_neg hgt] at hp
        by_cases hlt : cp < (tableAt t mid).first
        · rw [if_pos hlt] at hp
          rcases List.mem_cons.mp hp with rfl | hp
          · exact ⟨hm1, hm2⟩
          · have := ih min (mid - 1) hmin p hp
            omega
        · rw [if_neg hlt] at hp
          rw [List.mem_singleton] at hp
          omega
    · rw [if_neg hle] at hp
      simp at hp

/-- C14: on a non-empty table with the table invariant, with `max` the last
index, `bisearch` finishes and returns 1 or 0; it returns 1 exactly when `cp`
lies in one of the intervals of the table; and every index it probes lies in
`[0, max]`. -/
theorem bisearch_correct (t : List interval) (hinv : tableInv t) (hne : t ≠ [])
    (cp : Int) :
    (bisearch cp t ((t.length : Int) - 1) = some 1 ∨
      bisearch cp t ((t.length : Int) - 1) = some 0) ∧
    (bisearch cp t ((t.length : Int) - 1) = some 1 ↔
      ∃ i : Nat, ∃ h : i < t.length, t[i].first ≤ cp ∧ cp ≤ t[i].last) ∧
    (∀ p ∈ bisearchProbes cp t ((t.length : Int) - 1),
      0 ≤ p ∧ p ≤ (t.length : Int) - 1) := by
  have hlen : 0 < t.length := List.length_pos.mpr hne
  have hspec := bisearch_spec t hinv hne cp
  have hmem : inTable t cp = true ↔
      ∃ i : Nat, ∃ h : i < t.length, t[i].first ≤ cp ∧ cp ≤ t[i].last := by
    unfold inTable
    rw [List.any_eq_true]
    constructor
    · rintro ⟨iv, hiv, hin⟩
      obtain ⟨k, hk, rfl⟩ := List.mem_iff_getElem.mp hiv
      exact ⟨k, hk, by simpa using hin⟩
    · rintro ⟨k, hk, hin⟩
      exact ⟨t[k], List.getElem_mem _, by simpa using hin⟩
  refine ⟨?_, ?_, ?_⟩
  · rw [hspec]
    by_cases h : inTable t cp = true
    · left; rw [if_pos h]
    · right; rw [if_neg h]
  · rw [hspec, ← hmem]
    by_cases h : inTable t cp = true
    · simp [h]
    · simp [h]
  · intro p hp
    unfold bisearchProbes at hp
    split_ifs at hp
    · simp at hp
      omega
    · simp at hp
      omega
    · rcases List.mem_cons.mp hp with rfl | hp
      · omega
      · rcases List.mem_cons.mp hp with rfl | hp
        · omega
        · exact bisearchLoopProbes_bounds t cp _ 0 _ (le_refl 0) p hp

/-- Witness for C14: the table `[1,3], [5,7]` and the codepoint 6. -/
theorem bisearch_correct_witness :
    (bisearch 6 [interval.mk 1 3, interval.mk 5 7]
        ((([interval.mk 1 3, interval.mk 5 7] : List interval).length : Int) - 1) = some 1 ∨
      bisearch 6 [interval.mk 1 3, interval.mk 5 7]
        ((([interval.mk 1 3, interval.mk 5 7] : List interval).length : Int) - 1) = some 0) ∧
    (bisearch 6 [interval.mk 1 3, interval.mk 5 7]
        ((([interval.mk 1 3, interval.mk 5 7] : List interval).length : Int) - 1) = some 1 ↔
      ∃ i : Nat, ∃ h : i < ([interval.mk 1 3, interval.mk 5 7] : List interval).length,
        ([interval.mk 1 3, interval.mk 5 7] : List interval)[i].first ≤ 6 ∧
        6 ≤ ([interval.mk 1 3, interval.mk 5 7] : List interval)[i].last) ∧
    (∀ p ∈ bisearchProbes 6 [interval.mk 1 3, interval.mk 5 7]
        ((([interval.mk 1 3, interval.mk 5 7] : List interval).length : Int) - 1),
      0 ≤ p ∧ p ≤ (([interval.mk 1 3, interval.mk 5 7] : List interval).length : Int) - 1) :=
  bisearch_correct [interval.mk 1 3, interval.mk 5 7] (by simp [tableInv]) (by simp) 6

/-! ### Progress and termination of the string loop -/

theorem byteAt_drop (s : List Nat) (b i : Nat) : byteAt (s.drop b) i = byteAt s (b + i) := by
  unfold byteAt
  rw [List.getD_eq_getElem?_getD, List.getD_eq_getElem?_getD, List.getElem?_drop]

/-- A decode that succeeds with a character of non-negative width consumes at
least one byte, and no decode reports more bytes than are available. -/
theorem neo4j_u8codepoint_progress (s : List Nat) (n : Nat) :
    (neo4j_u8codepoint s n).2 ≤ n ∧
    (0 ≤ (neo4j_u8codepoint s n).1 → 0 ≤ refWidth (neo4j_u8codepoint s n).1 →
      1 ≤ (neo4j_u8codepoint s n).2) := by
  have hr := neo4j_u8clen_range s n
  rcases neo4j_u8codepoint_fst_snd s n with ⟨hl, he⟩ | ⟨hl, hc, he⟩
  · rw [he]
    exact ⟨le_refl n, fun h => by simp only [] at h; omega⟩
  · refine ⟨by omega, fun _ hw => ?_⟩
    by_contra hb
    have hz : neo4j_u8clen s n = 0 := by omega
    have hd : neo4j_u8codepoint s n = (0, 0) := by
      rw [neo4j_u8codepoint_eq, hz]
      simp
    rw [hd] at hw
    have w0 : refWidth 0 = -1 := by decide
    simp only [] at hw
    omega

theorem cswidthRounds_succ (fuel : Nat) (s : List Nat) (n : Nat) :
    cswidthRounds (fuel + 1) s n =
      if (neo4j_u8codepoint s n).1 < 0 then 1
      else
        match neo4j_u8cpwidth (neo4j_u8codepoint s n).1 with
        | none => 1
        | some w =>
          if w < 0 then 1
          else if n - (neo4j_u8codepoint s n).2 > 0 ∧
              byteAt (s.drop (neo4j_u8codepoint s n).2) 0 ≠ 0 then
            1 + cswidthRounds fuel (s.drop (neo4j_u8codepoint s n).2)
              (n - (neo4j_u8codepoint s n).2)
          else 1 := rfl

/-- The body of the loop is entered at most `max n 1` times. -/
theorem cswidthRounds_le : ∀ (fuel : Nat) (s : List Nat) (n : Nat),
    cswidthRounds fuel s n ≤ max n 1 := by
  intro fuel
  induction fuel with
  | zero => intro s n; simp [cswidthRounds]
  | succ fuel ih =>
    intro s n
    rw [cswidthRounds_succ]
    simp only [neo4j_u8cpwidth_eq]
    have hp := neo4j_u8codepoint_progress s n
    generalize neo4j_u8codepoint s n = r at hp ⊢
    by_cases h1 : r.1 < 0
    · rw [if_pos h1]; omega
    rw [if_neg h1]
    by_cases h2 : refWidth r.1 < 0
    · rw [if_pos h2]; omega
    rw [if_neg h2]
    by_cases h3 : n - r.2 > 0 ∧ byteAt (s.drop r.2) 0 ≠ 0
    · rw [if_pos h3]
      have := ih (s.drop r.2) (n - r.2)
      have := hp.2 (by omega) (by omega)
      omega
    · rw [if_neg h3]; omega

/-- The loop finishes within `max n 1` rounds. -/
theorem cswidthLoop_terminates : ∀ (fuel : Nat) (s : List Nat) (n : Nat) (width : Int),
    max n 1 ≤ fuel → ∃ v, cswidthLoop fuel s n width = some v := by
  intro fuel
  induction fuel with
  | zero => intro s n width h; omega
  | succ fuel ih =>
    intro s n width hf
    rw [cswidthLoop_succ]
    simp only [neo4j_u8cpwidth_eq]
    have hp := neo4j_u8codepoint_progress s n
    generalize neo4j_u8codepoint s n = r at hp ⊢
    by_cases h1 : r.1 < 0
    · rw [if_pos h1]; exact ⟨_, rfl⟩
    rw [if_neg h1]
    by_cases h2 : refWidth r.1 < 0
    · rw [if_pos h2]; exact ⟨_, rfl⟩
    rw [if_neg h2]
    by_cases h3 : n - r.2 > 0 ∧ byteAt (s.drop r.2) 0 ≠ 0
    · rw [if_pos h3]
      have := hp.2 (by omega) (by omega)
      exact ih (s.drop r.2) (n - r.2) _ (by omega)
    · rw [if_neg h3]; exact ⟨_, rfl⟩

/-- C18, as stated, fails when no byte is available: the body of the do-while
loop is still entered once, where it returns `-1`. -/
theorem cswidthRounds_zero_available :
    cswidthRounds 1 [] 0 = 1 ∧ ¬ (cswidthRounds 1 [] 0 ≤ 0) ∧
    neo4j_u8cswidth [] 0 = some (-1) := by
  decide

/-- C18, amended: `neo4j_u8cswidth` always finishes. The decoder never reports
more bytes than are available (the assertion `b <= n` holds), a round that does
not return `-1` consumes at least one byte (a decode of 0 bytes is codepoint 0,
of width `-1`), the body is entered at most `max n 1` times, and the loop
returns within `max n 1` rounds. -/
theorem neo4j_u8cswidth_terminates (s : List Nat) (n : Nat) :
    (neo4j_u8codepoint s n).2 ≤ n ∧
    (∀ w, 0 ≤ (neo4j_u8codepoint s n).1 →
      neo4j_u8cpwidth (neo4j_u8codepoint s n).1 = some w → 0 ≤ w →
      1 ≤ (neo4j_u8codepoint s n).2 ∧
        n - (neo4j_u8codepoint s n).2 < n) ∧
    (∀ fuel, cswidthRounds fuel s n ≤ max n 1) ∧
    (∀ fuel width, max n 1 ≤ fuel → ∃ v, cswidthLoop fuel s n width = some v) ∧
    (∃ v, neo4j_u8cswidth s n = some v) := by
  have hp := neo4j_u8codepoint_progress s n
  refine ⟨hp.1, ?_, fun fuel => cswidthRounds_le fuel s n,
    fun fuel width h => cswidthLoop_terminates fuel s n width h,
    cswidthLoop_terminates (n + 1) s n 0 (by omega)⟩
  intro w hcp hw hw0
  rw [neo4j_u8cpwidth_eq] at hw
  have hw' : refWidth (neo4j_u8codepoint s n).1 = w := Option.some.inj hw
  have := hp.2 hcp (by omega)
  omega

/-! ### The string width as a fold -/

theorem specChars_succ (fuel : Nat) (s : List Nat) (n : Nat) :
    specChars (fuel + 1) s n =
      if n = 0 ∨ byteAt s 0 = 0 then some []
      else if (neo4j_u8codepoint s n).1 < 0 then none
      else (specChars fuel (s.drop (neo4j_u8codepoint s n).2)
        (n - (neo4j_u8codepoint s n).2)).map (fun cs => (neo4j_u8codepoint s n).1 :: cs) :=
  rfl

/-- Away from a terminator a decode that succeeds consumes at least one byte. -/
theorem neo4j_u8codepoint_pos (s : List Nat) (n : Nat) (h0 : byteAt s 0 ≠ 0)
    (hcp : 0 ≤ (neo4j_u8codepoint s n).1) :
    1 ≤ (neo4j_u8codepoint s n).2 ∧ (neo4j_u8codepoint s n).2 ≤ n := by
  have hr := neo4j_u8clen_range s n
  rcases neo4j_u8codepoint_fst_snd s n with ⟨hl, he⟩ | ⟨hl, hc, he⟩
  · rw [he] at hcp
    simp only [] at hcp
    omega
  · have hz : neo4j_u8clen s n ≠ 0 := fun h => h0 (neo4j_u8clen_eq_zero s n h).2
    omega

/-- The characters of a buffer do not depend on the fuel, from `n` units on. -/
theorem specChars_fuel : ∀ (f g : Nat) (s : List Nat) (n : Nat), n ≤ f → n ≤ g →
    specChars f s n = specChars g s n := by
  intro f
  induction f with
  | zero =>
    intro g s n hf hg
    have hn : n = 0 := by omega
    subst hn
    cases g with
    | zero => rfl
    | succ g => rw [specChars_succ, if_pos (Or.inl rfl)]; rfl
  | succ f ih =>
    intro g s n hf hg
    cases g with
    | zero =>
      have hn : n = 0 := by omega
      subst hn
      rw [specChars_succ, if_pos (Or.inl rfl)]; rfl
    | succ g =>
      rw [specChars_succ, specChars_succ]
      by_cases hstop : n = 0 ∨ byteAt s 0 = 0
      · rw [if_pos hstop, if_pos hstop]
      · rw [if_neg hstop, if_neg hstop]
        by_cases hneg : (neo4j_u8codepoint s n).1 < 0
        · rw [if_pos hneg, if_pos hneg]
        · rw [if_neg hneg, if_neg hneg]
          have hp := neo4j_u8codepoint_pos s n (fun h => hstop (Or.inr h)) (by omega)
          rw [ih g _ _ (by omega) (by omega)]

/-- The loop of `neo4j_u8cswidth`, started with the total `width` away from a
terminator, returns the all-or-nothing total of the characters of the buffer. -/
theorem cswidthLoop_eq_fold : ∀ (f g : Nat) (s : List Nat) (n : Nat) (width : Int),
    1 ≤ n → byteAt s 0 ≠ 0 → n ≤ f → n ≤ g →
    cswidthLoop f s n width =
      some (match specChars g s n with
        | none => -1
        | some cs =>
          if cs.all (fun c => decide (0 ≤ refWidth c)) then width + (cs.map refWidth).sum
          else -1) := by
  intro f
  induction f with
  | zero => intro g s n width hn _ hf _; omega
  | succ f ih =>
    intro g s n width hn h0 hf hg
    obtain ⟨g, rfl⟩ : ∃ g', g = g' + 1 := ⟨g - 1, by omega⟩
    have hstop : ¬ (n = 0 ∨ byteAt s 0 = 0) := by
      rintro (h | h)
      · omega
      · exact h0 h
    rw [cswidthLoop_succ, specChars_succ, if_neg hstop]
    simp only [neo4j_u8cpwidth_eq]
    by_cases hneg : (neo4j_u8codepoint s n).1 < 0
    · rw [if_pos hneg, if_pos hneg]
    rw [if_neg hneg, if_neg hneg]
    have hp := neo4j_u8codepoint_pos s n h0 (by omega)
    generalize neo4j_u8codepoint s n = r at hneg hp ⊢
    by_cases hw : refWidth r.1 < 0
    · rw [if_pos hw]
      have hd : decide (0 ≤ refWidth r.1) = false := by simp; omega
      cases specChars g (s.drop r.2) (n - r.2) with
      | none => rfl
      | some cs => simp [List.all_cons, hd]
    rw [if_neg hw]
    have hd : decide (0 ≤ refWidth r.1) = true := by simp; omega
    by_cases hgo : n - r.2 > 0 ∧ byteAt (s.drop r.2) 0 ≠ 0
    · rw [if_pos hgo, ih g (s.drop r.2) (n - r.2) _ (by omega) hgo.2 (by omega) (by omega)]
      cases specChars g (s.drop r.2) (n - r.2) with
      | none => rfl
      | some cs => simp [List.all_cons, hd, add_assoc]
    · rw [if_neg hgo]
      have hnil : specChars g (s.drop r.2) (n - r.2) = some [] := by
        cases g with
        | zero => rfl
        | succ g =>
          rw [specChars_succ, if_pos]
          by_cases hz : n - r.2 = 0
          · exact Or.inl hz
          · right
            by_contra hb
            exact hgo ⟨by omega, hb⟩
      rw [hnil]
      simp [hd]

/-- The string width is the all-or-nothing total of the specification. -/
theorem neo4j_u8cswidth_eq_specWidth (s : List Nat) (n : Nat) (hn : 1 ≤ n)
    (h0 : byteAt s 0 ≠ 0) : neo4j_u8cswidth s n = some (specWidth s n) := by
  unfold neo4j_u8cswidth specWidth sumWidths
  rw [cswidthLoop_eq_fold (n + 1) n s n 0 hn h0 (by omega) (le_refl n)]
  cases specChars n s n with
  | none => rfl
  | some cs => simp

/-- A sequence that the validator accepts away from a terminator ends before the
next terminator, and is accepted on every buffer that agrees up to there. -/
theorem neo4j_u8clen_stops_before_zero (s t : List Nat) (n z : Nat) (k : Int)
    (hz : byteAt s z = 0) (h0 : byteAt s 0 ≠ 0)
    (hagree : ∀ i, i ≤ z → byteAt t i = byteAt s i)
    (h : neo4j_u8clen s n = k) (hk : 1 ≤ k) :
    k ≤ (z : Int) ∧ neo4j_u8clen t n = k := by
  have hr := neo4j_u8clen_range s n
  have hk4 : k = 1 ∨ k = 2 ∨ k = 3 ∨ k = 4 := by omega
  have hz0 : z ≠ 0 := fun hh => h0 (hh ▸ hz)
  have hkz : k ≤ (z : Int) := by
    by_contra hlt
    have hz4 : z < 4 := by omega
    rcases hk4 with rfl | rfl | rfl | rfl
    · omega
    · have := neo4j_u8clen_eq_two s n h
      interval_cases z <;> omega
    · have := neo4j_u8clen_eq_three s n h
      interval_cases z <;> omega
    · have := neo4j_u8clen_eq_four s n h
      interval_cases z <;> omega
  exact ⟨hkz, neo4j_u8clen_congr s t n n k h hk (fun i hi => hagree i (by omega)) (by omega)⟩

/-- Away from a terminator the decoder does not depend on the bytes after the
next terminator, and a decode that succeeds ends before it. -/
theorem neo4j_u8codepoint_before_zero (s t : List Nat) (n z : Nat)
    (hz : byteAt s z = 0) (h0 : byteAt s 0 ≠ 0)
    (hagree : ∀ i, i ≤ z → byteAt t i = byteAt s i) :
    neo4j_u8codepoint t n = neo4j_u8codepoint s n ∧
    (0 ≤ (neo4j_u8codepoint s n).1 → (neo4j_u8codepoint s n).2 ≤ z) := by
  have hz0 : z ≠ 0 := fun hh => h0 (hh ▸ hz)
  have hrs := neo4j_u8clen_range s n
  have hrt := neo4j_u8clen_range t n
  have hs0 : neo4j_u8clen s n ≠ 0 := fun h => h0 (neo4j_u8clen_eq_zero s n h).2
  have ht0 : neo4j_u8clen t n ≠ 0 := fun h =>
    h0 ((hagree 0 (by omega)) ▸ (neo4j_u8clen_eq_zero t n h).2)
  by_cases hs : 1 ≤ neo4j_u8clen s n
  · obtain ⟨hkz, ht⟩ := neo4j_u8clen_stops_before_zero s t n z _ hz h0 hagree rfl hs
    refine ⟨neo4j_u8codepoint_congr s t n n ht (by omega) (hagree 0 (by omega))
      (fun h2 => hagree 1 (by omega)), fun _ => ?_⟩
    rcases neo4j_u8codepoint_fst_snd s n with ⟨hl, -⟩ | ⟨-, -, he⟩
    · omega
    · omega
  · have hsn : neo4j_u8clen s n = -1 := by omega
    have htn : neo4j_u8clen t n = -1 := by
      by_contra hne
      have ht1 : 1 ≤ neo4j_u8clen t n := by omega
      have hzt : byteAt t z = 0 := by rw [hagree z (le_refl z)]; exact hz
      have h0t : byteAt t 0 ≠ 0 := by rw [hagree 0 (by omega)]; exact h0
      have := (neo4j_u8clen_stops_before_zero t s n z _ hzt h0t
        (fun i hi => (hagree i hi).symm) rfl ht1).2
      omega
    rw [neo4j_u8codepoint_eq, neo4j_u8codepoint_eq, hsn, htn]
    simp

/-- The characters of a buffer do not depend on the bytes after a terminator. -/
theorem specChars_before_zero : ∀ (f : Nat) (s t : List Nat) (n z : Nat),
    byteAt s z = 0 → (∀ i, i ≤ z → byteAt t i = byteAt s i) →
    specChars f t n = specChars f s n := by
  intro f
  induction f with
  | zero => intro s t n z _ _; rfl
  | succ f ih =>
    intro s t n z hz hagree
    rw [specChars_succ, specChars_succ, hagree 0 (by omega)]
    by_cases hstop : n = 0 ∨ byteAt s 0 = 0
    · rw [if_pos hstop, if_pos hstop]
    · rw [if_neg hstop, if_neg hstop]
      have h0 : byteAt s 0 ≠ 0 := fun h => hstop (Or.inr h)
      obtain ⟨hd, hb⟩ := neo4j_u8codepoint_before_zero s t n z hz h0 hagree
      rw [hd]
      by_cases hneg : (neo4j_u8codepoint s n).1 < 0
      · rw [if_pos hneg, if_pos hneg]
      · rw [if_neg hneg, if_neg hneg]
        have hbz := hb (by omega)
        rw [ih (s.drop (neo4j_u8codepoint s n).2) (t.drop (neo4j_u8codepoint s n).2) _
          (z - (neo4j_u8codepoint s n).2)]
        · rw [byteAt_drop]
          have : (neo4j_u8codepoint s n).2 + (z - (neo4j_u8codepoint s n).2) = z := by omega
          rw [this]
          exact hz
        · intro i hi
          rw [byteAt_drop, byteAt_drop]
          exact hagree _ (by omega)

/-- C13: on a buffer with at least one byte available that does not start with a
terminator, `neo4j_u8cswidth` returns the all-or-nothing fold of the
specification: with `c_1, c_2, ...` the characters that `neo4j_u8codepoint`
yields from the start, advancing by the bytes consumed until the next byte is
`0` or the available bytes are consumed, the sum of their widths when every
decode succeeds and every width is non-negative, and `-1` otherwise. The widths
are those of `neo4j_u8cpwidth`, the characters do not depend on the fuel, and
the bytes after a terminator do not affect the result. -/
theorem neo4j_u8cswidth_is_fold (s : List Nat) (n : Nat) (hn : 1 ≤ n)
    (h0 : byteAt s 0 ≠ 0) :
    neo4j_u8cswidth s n = some (specWidth s n) ∧
    (∀ c, neo4j_u8cpwidth c = some (refWidth c)) ∧
    (∀ fuel, n ≤ fuel → specChars fuel s n = specChars n s n) ∧
    (∀ (t : List Nat) (z : Nat), byteAt s z = 0 →
      (∀ i, i ≤ z → byteAt t i = byteAt s i) →
      neo4j_u8cswidth t n = neo4j_u8cswidth s n) := by
  refine ⟨neo4j_u8cswidth_eq_specWidth s n hn h0, neo4j_u8cpwidth_eq,
    fun fuel hf => specChars_fuel fuel n s n hf (le_refl n), ?_⟩
  intro t z hz hagree
  have hz0 : z ≠ 0 := fun hh => h0 (hh ▸ hz)
  have h0t : byteAt t 0 ≠ 0 := by rw [hagree 0 (by omega)]; exact h0
  rw [neo4j_u8cswidth_eq_specWidth s n hn h0, neo4j_u8cswidth_eq_specWidth t n hn h0t]
  unfold specWidth
  rw [specChars_before_zero n s t n z hz hagree]

/-- Witness for C13: the bytes `41 E4 B8 AD 00` with five bytes available. -/
theorem neo4j_u8cswidth_is_fold_witness :
    neo4j_u8cswidth [0x41, 0xE4, 0xB8, 0xAD, 0x00] 5 =
      some (specWidth [0x41, 0xE4, 0xB8, 0xAD, 0x00] 5) ∧
    (∀ c, neo4j_u8cpwidth c = some (refWidth c)) ∧
    (∀ fuel, 5 ≤ fuel → specChars fuel [0x41, 0xE4, 0xB8, 0xAD, 0x00] 5 =
      specChars 5 [0x41, 0xE4, 0xB8, 0xAD, 0x00] 5) ∧
    (∀ (t : List Nat) (z : Nat), byteAt [0x41, 0xE4, 0xB8, 0xAD, 0x00] z = 0 →
      (∀ i, i ≤ z → byteAt t i = byteAt [0x41, 0xE4, 0xB8, 0xAD, 0x00] i) →
      neo4j_u8cswidth t 5 = neo4j_u8cswidth [0x41, 0xE4, 0xB8, 0xAD, 0x00] 5) :=
  neo4j_u8cswidth_is_fold [0x41, 0xE4, 0xB8, 0xAD, 0x00] 5 (by decide) (by decide)

end U8

/-! ## Claims about the canned result stream -/

namespace Canned

/-- No operation takes `next_result` beyond `nresults`, and none changes
`results` or `nresults`. -/
theorem crs_apply_inv {Value : Type} (crs : canned_result_stream Value) (op : crs_op)
    (h : crs.next_result ≤ crs.nresults) :
    (crs_apply crs op).next_result ≤ (crs_apply crs op).nresults ∧
    (crs_apply crs op).results = crs.results ∧ (crs_apply crs op).nresults = crs.nresults := by
  cases op
  case fetch_next =>
    show (crs_fetch_next crs).2.next_result ≤ (crs_fetch_next crs).2.nresults ∧
      (crs_fetch_next crs).2.results = crs.results ∧
      (crs_fetch_next crs).2.nresults = crs.nresults
    unfold crs_fetch_next
    by_cases hge : crs.next_result ≥ crs.nresults
    · rw [if_pos hge]
      exact ⟨h, rfl, rfl⟩
    · rw [if_neg hge]
      exact ⟨by show crs.next_result + 1 ≤ crs.nresults; omega, rfl, rfl⟩
  all_goals exact ⟨h, rfl, rfl⟩

theorem crs_run_inv {Value : Type} (ops : List crs_op) :
    ∀ crs : canned_result_stream Value, crs.next_result ≤ crs.nresults →
      (crs_run crs ops).next_result ≤ (crs_run crs ops).nresults := by
  induction ops with
  | nil => intro crs h; exact h
  | cons op ops ih =>
    intro crs h
    exact ih (crs_apply crs op) (crs_apply_inv crs op h).1

/-- The stream after `k` calls to `crs_fetch_next`: the cursor has moved by `k`,
up to `nresults`, and nothing else has changed. -/
theorem crs_fetched_eq {Value : Type} : ∀ (k : Nat) (crs : canned_result_stream Value),
    crs.next_result ≤ crs.nresults →
    crs_fetched k crs = { crs with next_result := min (crs.next_result + k) crs.nresults } := by
  intro k
  induction k with
  | zero =>
    intro crs h
    simp only [crs_fetched, Nat.add_zero]
    rw [Nat.min_eq_left h]
  | succ k ih =>
    intro crs h
    simp only [crs_fetched, crs_fetch_next]
    split_ifs with hge
    · rw [ih crs h]
      have h1 : min (crs.next_result + k) crs.nresults = crs.nresults := by omega
      have h2 : min (crs.next_result + (k + 1)) crs.nresults = crs.nresults := by omega
      rw [h1, h2]
    · rw [ih _ (by simp only []; omega)]
      have h1 : crs.next_result + 1 + k = crs.next_result + (k + 1) := by omega
      simp only [h1]

/-- C20: for a stream that `neo4j_canned_result_stream` creates from `nrecords`
records, `next_result ≤ nresults` holds after every sequence of operations; the
`i`-th call to `crs_fetch_next`, for `1 ≤ i ≤ nrecords`, returns the result of
index `i - 1`, which wraps `records[i - 1]`; every later call returns `NULL` and
leaves the stream as it is. -/
theorem crs_fetch_next_sequence {Value : Type} (cr_allocated : Bool)
    (fieldnames : List String) (nfields : Nat) (records : List Value) (nrecords : Nat)
    (crs : canned_result_stream Value) (hlen : nrecords ≤ records.length)
    (hcrs : neo4j_canned_result_stream cr_allocated fieldnames nfields records nrecords =
      some crs) :
    (∀ ops, (crs_run crs ops).next_result ≤ (crs_run crs ops).nresults) ∧
    (∀ i, 1 ≤ i → i ≤ nrecords →
      (crs_fetch_next (crs_fetched (i - 1) crs)).1 = some (i - 1) ∧
      ∃ v, records[i - 1]? = some v ∧
        (crs_fetched (i - 1) crs).results[i - 1]? = some (canned_result.mk v)) ∧
    (∀ i, nrecords < i →
      crs_fetch_next (crs_fetched (i - 1) crs) = (none, crs_fetched (i - 1) crs)) := by
  unfold neo4j_canned_result_stream at hcrs
  split_ifs at hcrs with hfail
  have hcrs := (Option.some.inj hcrs).symm
  have hnext : crs.next_result = 0 := by rw [hcrs]
  have hn : crs.nresults = nrecords := by rw [hcrs]
  have hres : crs.results = (records.take nrecords).map canned_result.mk := by rw [hcrs]
  have hinv : crs.next_result ≤ crs.nresults := by omega
  refine ⟨fun ops => crs_run_inv ops crs hinv, ?_, ?_⟩
  · intro i h1 h2
    rw [crs_fetched_eq (i - 1) crs hinv]
    have hmin : min (crs.next_result + (i - 1)) crs.nresults = i - 1 := by omega
    rw [hmin]
    refine ⟨?_, ?_⟩
    · simp only [crs_fetch_next]
      rw [if_neg (by omega)]
    · have hlt : i - 1 < records.length := by omega
      refine ⟨records[i - 1], List.getElem?_eq_getElem hlt, ?_⟩
      simp only [hres, List.getElem?_map, List.getElem?_take]
      rw [if_pos (by omega), List.getElem?_eq_getElem hlt]
      rfl
  · intro i hi
    rw [crs_fetched_eq (i - 1) crs hinv]
    have hmin : min (crs.next_result + (i - 1)) crs.nresults = crs.nresults := by omega
    rw [hmin]
    simp only [crs_fetch_next]
    rw [if_pos (by simp)]

/-- Witness for C20: a stream of the two records 10 and 20. -/
theorem crs_fetch_next_sequence_witness :
    (∀ ops, (crs_run (canned_result_stream.mk ["n"] 1
        [canned_result.mk (10 : Nat), canned_result.mk 20] 2 0 none) ops).next_result ≤
      (crs_run (canned_result_stream.mk ["n"] 1
        [canned_result.mk (10 : Nat), canned_result.mk 20] 2 0 none) ops).nresults) ∧
    (∀ i, 1 ≤ i → i ≤ 2 →
      (crs_fetch_next (crs_fetched (i - 1) (canned_result_stream.mk ["n"] 1
        [canned_result.mk (10 : Nat), canned_result.mk 20] 2 0 none))).1 = some (i - 1) ∧
      ∃ v, [(10 : Nat), 20][i - 1]? = some v ∧
        (crs_fetched (i - 1) (canned_result_stream.mk ["n"] 1
          [canned_result.mk (10 : Nat), canned_result.mk 20] 2 0 none)).results[i - 1]? =
          some (canned_result.mk v)) ∧
    (∀ i, 2 < i →
      crs_fetch_next (crs_fetched (i - 1) (canned_result_stream.mk ["n"] 1
        [canned_result.mk (10 : Nat), canned_result.mk 20] 2 0 none)) =
      (none, crs_fetched (i - 1) (canned_result_stream.mk ["n"] 1
        [canned_result.mk (10 : Nat), canned_result.mk 20] 2 0 none))) :=
  crs_fetch_next_sequence true ["n"] 1 [10, 20] 2 _ (by decide) rfl

end Canned
